import Mathlib

/-!
Verification of the kazoe counting engine (src/count.rs).

Byte buffers are modelled as `List Nat` (each element one byte, `u8` values);
decoded text is modelled as `List Nat` of Unicode scalar values.  Rust `usize`
arithmetic is modelled by `Nat` (`saturating_sub` is `Nat` subtraction,
`div_ceil` is `(a + b - 1) / b`).  `f64` fields of `Statistics` are modelled
by exact rationals / reals (floating-point rounding is not modelled).
Functions are translated from src/count.rs; each definition names the Rust
item it embeds.
-/

/-- src/count.rs:6 `const CHUNK_SIZE: usize = 1024 * 1024`. -/
def CHUNK_SIZE : Nat := 1024 * 1024

/-- src/count.rs:7 `const PARALLEL_THRESHOLD: usize = 512 * 1024`. -/
def PARALLEL_THRESHOLD : Nat := 512 * 1024

/-- Rust `u8::is_ascii_whitespace`: space, tab, line feed, form feed, carriage return. -/
def isAsciiWhitespace (b : Nat) : Bool :=
  b == 32 || b == 9 || b == 10 || b == 12 || b == 13

/-- The test `(byte & 0xC0) == 0x80` from src/count.rs:133 (UTF-8 continuation byte). -/
def isUtf8Cont (b : Nat) : Bool := b &&& 0xC0 == 0x80

/-- Splits a byte list at every newline byte (10).  The result always has one
more entry than the number of newlines; a trailing newline yields a final `[]`
record.  This is the record decomposition traversed by the `memchr_iter(b'\n', …)`
loops of src/count.rs. -/
def splitLines : List Nat → List (List Nat)
  | [] => [[]]
  | b :: rest =>
    if b == 10 then [] :: splitLines rest
    else
      match splitLines rest with
      | [] => [[b]]
      | r :: rs => (b :: r) :: rs

/-- Length of one record with a single trailing carriage return (13) stripped:
the `if end > prev && data[end-1] == b'\r' { end -= 1 }` step of
src/count.rs:262/271/418/427/468/478. -/
def recLen (r : List Nat) : Nat :=
  if r.getLast? = some 13 then r.length - 1 else r.length

/-- src/count.rs:412 `collect_line_lengths_chunk`: the loop over newline
positions records `recLen` of every terminated record, and of the final
unterminated record only when it is non-empty (`prev < data.len()`). -/
def collect_line_lengths_chunk (data : List Nat) : List Nat :=
  (splitLines data).dropLast.map recLen ++
    (if (splitLines data).getLastD [] = [] then []
     else [recLen ((splitLines data).getLastD [])])

/-- A record counts as blank when every byte is ASCII whitespace (src/count.rs:40). -/
def isBlankRec (r : List Nat) : Bool := r.all isAsciiWhitespace

/-- src/count.rs:35 `count_blank_lines_chunk`: every terminated record is
tested; the final unterminated record is tested only when non-empty
(`line_start < data.len()`). -/
def count_blank_lines_chunk (data : List Nat) : Nat :=
  (splitLines data).dropLast.countP isBlankRec +
    (if (splitLines data).getLastD [] ≠ [] ∧ isBlankRec ((splitLines data).getLastD [])
     then 1 else 0)

/-- src/count.rs:256 `max_line_length_chunk`: the loop tracks the maximum of
exactly the record lengths that `collect_line_lengths_chunk` collects. -/
def max_line_length_chunk (data : List Nat) : Nat :=
  (collect_line_lengths_chunk data).foldr max 0

/-- src/count.rs:462 `generate_histogram_chunk`, as a total map
bucket ↦ count (absent buckets are 0, matching the `HashMap` reading of the
spec).  The bucket of a record is `(len / 10) * 10`. -/
def generate_histogram_chunk (data : List Nat) (bucket : Nat) : Nat :=
  ((collect_line_lengths_chunk data).map (fun l => l / 10 * 10)).count bucket

/-- Rust slice expression `&data[a..b]`. -/
def sliceBytes (data : List Nat) (a b : Nat) : List Nat := (data.drop a).take (b - a)

/-- Rust `boundaries.windows(2)` as the list of adjacent pairs. -/
def zipWindows (l : List Nat) : List (Nat × Nat) := l.zip l.tail

/-- `memchr::memchr(b'\n', data)`: index of the first newline byte. -/
def memchrIdx : List Nat → Option Nat
  | [] => none
  | b :: rest => if b == 10 then some 0 else (memchrIdx rest).map (· + 1)

/-- `memchr::memchr(b'\n', &data[pos..])` shifted to an absolute index. -/
def memchrFrom (data : List Nat) (pos : Nat) : Option Nat :=
  (memchrIdx (data.drop pos)).map (pos + ·)

/-- The `while pos < data.len()` loop of src/count.rs:56 `find_line_boundaries`,
with a fuel argument for structural recursion.  Each iteration strictly
increases `pos`, so fuel `data.length + 1` (as passed by
`find_line_boundaries`) is never exhausted. -/
def lineBdAuxF (data : List Nat) (chunk_size : Nat) : Nat → Nat → List Nat
  | 0, _ => []
  | fuel + 1, pos =>
    if pos < data.length then
      let pos2 := match memchrFrom data pos with
                  | some nl => nl + 1
                  | none => data.length
      pos2 :: lineBdAuxF data chunk_size fuel (pos2 + chunk_size)
    else []

/-- src/count.rs:56 `find_line_boundaries`. -/
def find_line_boundaries (data : List Nat) (chunk_size : Nat) : List Nat :=
  if (0 :: lineBdAuxF data chunk_size (data.length + 1) chunk_size).getLastD 0 = data.length
  then 0 :: lineBdAuxF data chunk_size (data.length + 1) chunk_size
  else (0 :: lineBdAuxF data chunk_size (data.length + 1) chunk_size) ++ [data.length]

/-- The `while p < data.len() && (data[p] & 0xC0) == 0x80` loop of
src/count.rs:127 `find_utf8_boundary`, with fuel (the loop advances `p` by one
each step, so fuel `data.length + 1` suffices; on exhaustion we return
`data.length`, which is unreachable for the fuel used by callers). -/
def utf8BdLoopF (data : List Nat) : Nat → Nat → Nat
  | 0, _ => data.length
  | fuel + 1, p =>
    if p < data.length then
      if isUtf8Cont (data.getD p 0) then utf8BdLoopF data fuel (p + 1) else p
    else p

/-- src/count.rs:127 `find_utf8_boundary`. -/
def find_utf8_boundary (data : List Nat) (pos : Nat) : Nat :=
  if pos ≥ data.length then data.length
  else utf8BdLoopF data (data.length + 1) pos

/-- The `while pos < data.len()` loop of src/count.rs:110
`find_utf8_chunk_boundaries`, with fuel.  In the Rust source the loop advances
`pos` by at least `chunk_size` per iteration and is only ever called with
`chunk_size = CHUNK_SIZE > 0`; for `chunk_size = 0` the Rust loop would not
terminate, and this model stops instead. -/
def utf8BdAuxF (data : List Nat) (chunk_size : Nat) : Nat → Nat → List Nat
  | 0, _ => []
  | fuel + 1, pos =>
    if pos < data.length ∧ 0 < chunk_size then
      let p := find_utf8_boundary data pos
      p :: utf8BdAuxF data chunk_size fuel (p + chunk_size)
    else []

/-- src/count.rs:110 `find_utf8_chunk_boundaries`. -/
def find_utf8_chunk_boundaries (data : List Nat) (chunk_size : Nat) : List Nat :=
  if (0 :: utf8BdAuxF data chunk_size (data.length + 1) chunk_size).getLastD 0 = data.length
  then 0 :: utf8BdAuxF data chunk_size (data.length + 1) chunk_size
  else (0 :: utf8BdAuxF data chunk_size (data.length + 1) chunk_size) ++ [data.length]

/-- `data.par_chunks(cs)` of src/count.rs:14: plain fixed-size chunking.
(Rust panics for `cs = 0`; the model returns `[]`, and the only call site uses
`CHUNK_SIZE > 0`.) -/
def chunksExact (cs : Nat) (data : List Nat) : List (List Nat) :=
  if h : data = [] ∨ cs = 0 then []
  else data.take cs :: chunksExact cs (data.drop cs)
termination_by data.length
decreasing_by
  simp only [not_or] at h
  have h1 : 0 < cs := Nat.pos_of_ne_zero h.2
  have h2 : 0 < data.length := List.length_pos.mpr h.1
  simpa [List.length_drop] using Nat.sub_lt h2 h1

/-- The sequential branch of src/count.rs:9 `count_lines`:
`memchr_iter(b'\n', data).count()`. -/
def lines_seq (data : List Nat) : Nat := data.count 10

/-- The parallel branch of src/count.rs:9 `count_lines`. -/
def lines_par (data : List Nat) : Nat :=
  ((chunksExact CHUNK_SIZE data).map (fun c => c.count 10)).sum

/-- src/count.rs:9 `count_lines`. -/
def count_lines (data : List Nat) : Nat :=
  if data.length < PARALLEL_THRESHOLD then lines_seq data else lines_par data

/-- The parallel branch of src/count.rs:19 `count_blank_lines`. -/
def blanks_par (data : List Nat) : Nat :=
  ((zipWindows (find_line_boundaries data CHUNK_SIZE)).map
    (fun w => count_blank_lines_chunk (sliceBytes data w.1 w.2))).sum

/-- src/count.rs:19 `count_blank_lines`. -/
def count_blank_lines (data : List Nat) : Nat :=
  if data = [] then 0
  else if data.length < PARALLEL_THRESHOLD then count_blank_lines_chunk data
  else blanks_par data

/-- The parallel branch of src/count.rs:239 `max_line_length`
(`.map(max_line_length_chunk).max().unwrap_or(0)`; over `Nat` this maximum
equals the right fold of `max` with base 0). -/
def maxlen_par (data : List Nat) : Nat :=
  ((zipWindows (find_line_boundaries data CHUNK_SIZE)).map
    (fun w => max_line_length_chunk (sliceBytes data w.1 w.2))).foldr max 0

/-- src/count.rs:239 `max_line_length`. -/
def max_line_length (data : List Nat) : Nat :=
  if data = [] then 0
  else if data.length < PARALLEL_THRESHOLD then max_line_length_chunk data
  else maxlen_par data

/-- The parallel branch of the line-length collection in src/count.rs:349–354
(`par_windows(2).flat_map(collect_line_lengths_chunk).collect()`). -/
def lengths_par (data : List Nat) : List Nat :=
  (zipWindows (find_line_boundaries data CHUNK_SIZE)).flatMap
    (fun w => collect_line_lengths_chunk (sliceBytes data w.1 w.2))

/-- The parallel branch of src/count.rs:436 `generate_histogram` as a total
map: per-chunk histograms merged by bucket-wise addition. -/
def hist_par (data : List Nat) (bucket : Nat) : Nat :=
  ((zipWindows (find_line_boundaries data CHUNK_SIZE)).map
    (fun w => generate_histogram_chunk (sliceBytes data w.1 w.2) bucket)).sum

/-- src/count.rs:436 `generate_histogram` as a total map bucket ↦ count. -/
def generate_histogram (data : List Nat) (bucket : Nat) : Nat :=
  if data = [] then 0
  else if data.length < PARALLEL_THRESHOLD then generate_histogram_chunk data bucket
  else hist_par data bucket

/-- Rust `char::is_whitespace` (the Unicode White_Space property), on Unicode
scalar values. -/
def isUnicodeWhitespace (c : Nat) : Bool :=
  (9 ≤ c && c ≤ 13) || c == 32 || c == 0x85 || c == 0xA0 || c == 0x1680 ||
  (0x2000 ≤ c && c ≤ 0x200A) || c == 0x2028 || c == 0x2029 || c == 0x202F ||
  c == 0x205F || c == 0x3000

/-- The recursion of `std::str::from_utf8` validation, structural on a fuel
argument (one unit per decoded character; a character consumes at least one
byte, so the fuel `l.length` used by `utf8Decode` is never exhausted). -/
def utf8DecodeF : Nat → List Nat → Option (List Nat)
  | _, [] => some []
  | 0, _ :: _ => none
  | fuel + 1, b :: rest =>
    if b < 0x80 then (utf8DecodeF fuel rest).map (b :: ·)
    else if b < 0xC2 then none
    else if b < 0xE0 then
      match rest with
      | b1 :: rest1 =>
        if 0x80 ≤ b1 ∧ b1 < 0xC0 then
          (utf8DecodeF fuel rest1).map (((b - 0xC0) * 0x40 + (b1 - 0x80)) :: ·)
        else none
      | [] => none
    else if b < 0xF0 then
      match rest with
      | b1 :: b2 :: rest2 =>
        if (if b = 0xE0 then 0xA0 ≤ b1 ∧ b1 < 0xC0
            else if b = 0xED then 0x80 ≤ b1 ∧ b1 < 0xA0
            else 0x80 ≤ b1 ∧ b1 < 0xC0) ∧ 0x80 ≤ b2 ∧ b2 < 0xC0 then
          (utf8DecodeF fuel rest2).map
            (((b - 0xE0) * 0x1000 + (b1 - 0x80) * 0x40 + (b2 - 0x80)) :: ·)
        else none
      | _ => none
    else if b < 0xF5 then
      match rest with
      | b1 :: b2 :: b3 :: rest3 =>
        if (if b = 0xF0 then 0x90 ≤ b1 ∧ b1 < 0xC0
            else if b = 0xF4 then 0x80 ≤ b1 ∧ b1 < 0x90
            else 0x80 ≤ b1 ∧ b1 < 0xC0) ∧
           0x80 ≤ b2 ∧ b2 < 0xC0 ∧ 0x80 ≤ b3 ∧ b3 < 0xC0 then
          (utf8DecodeF fuel rest3).map
            (((b - 0xF0) * 0x40000 + (b1 - 0x80) * 0x1000 +
               (b2 - 0x80) * 0x40 + (b3 - 0x80)) :: ·)
        else none
      | _ => none
    else none

/-- `std::str::from_utf8`: strict UTF-8 validation and decoding to Unicode
scalar values (rejecting truncated sequences, stray continuation bytes,
overlong forms, surrogates, and values above U+10FFFF, exactly as Rust
does). -/
def utf8Decode (l : List Nat) : Option (List Nat) := utf8DecodeF l.length l

/-- UTF-8 encoding of one Unicode scalar value (`str::as_bytes` of a one-char
string). -/
def utf8EncodeChar (c : Nat) : List Nat :=
  if c < 0x80 then [c]
  else if c < 0x800 then [0xC0 + c / 0x40, 0x80 + c % 0x40]
  else if c < 0x10000 then
    [0xE0 + c / 0x1000, 0x80 + c / 0x40 % 0x40, 0x80 + c % 0x40]
  else
    [0xF0 + c / 0x40000, 0x80 + c / 0x1000 % 0x40, 0x80 + c / 0x40 % 0x40,
     0x80 + c % 0x40]

/-- `str::as_bytes` of decoded text. -/
def utf8Encode (cs : List Nat) : List Nat := cs.flatMap utf8EncodeChar

/-- The word-transition loop of src/count.rs:140 `count_words_in_chunk`:
a word is counted at each non-whitespace unit that follows whitespace or the
start (state `inWord = false`). -/
def wordCountAux (ws : Nat → Bool) : List Nat → Bool → Nat
  | [], _ => 0
  | c :: rest, inWord =>
    if ws c then wordCountAux ws rest false
    else if inWord then wordCountAux ws rest true
    else 1 + wordCountAux ws rest true

/-- The `in_word` state after scanning a list (used to state how
`wordCountAux` splits over `++`). -/
def wordEndState (ws : Nat → Bool) (l : List Nat) (b : Bool) : Bool :=
  l.foldl (fun _ c => !ws c) b

/-- src/count.rs:140 `count_words_in_chunk`: Unicode-whitespace scan on valid
UTF-8, ASCII-whitespace byte scan otherwise. -/
def count_words_in_chunk (chunk : List Nat) : Nat :=
  match utf8Decode chunk with
  | some text => wordCountAux isUnicodeWhitespace text false
  | none => wordCountAux isAsciiWhitespace chunk false

/-- The sequential branch of src/count.rs:77 `count_all_words`. -/
def words_seq (data : List Nat) : Nat := count_words_in_chunk data

/-- The parallel branch of src/count.rs:77 `count_all_words`: summed per-chunk
counts minus one per internal boundary whose two adjacent bytes are both
non-(ASCII-)whitespace (`saturating_sub` is `Nat` subtraction). -/
def words_par (data : List Nat) : Nat :=
  ((zipWindows (find_utf8_chunk_boundaries data CHUNK_SIZE)).map
    (fun w => count_words_in_chunk (sliceBytes data w.1 w.2))).sum -
  ((zipWindows (find_utf8_chunk_boundaries data CHUNK_SIZE)).map
    (fun w => if 0 < w.2 ∧ w.2 < data.length ∧
        isAsciiWhitespace (data.getD (w.2 - 1) 0) = false ∧
        isAsciiWhitespace (data.getD w.2 0) = false
      then 1 else 0)).sum

/-- src/count.rs:77 `count_all_words`. -/
def count_all_words (data : List Nat) : Nat :=
  if data = [] then 0
  else if data.length < PARALLEL_THRESHOLD then words_seq data
  else words_par data

/-- Per-slice character count of src/count.rs:222/232:
`from_utf8(..).map(|s| s.chars().count()).unwrap_or(len)`. -/
def chars_of_chunk (chunk : List Nat) : Nat :=
  match utf8Decode chunk with
  | some text => text.length
  | none => chunk.length

/-- The sequential branch of src/count.rs:216 `count_chars`. -/
def chars_seq (data : List Nat) : Nat := chars_of_chunk data

/-- The parallel branch of src/count.rs:216 `count_chars`. -/
def chars_par (data : List Nat) : Nat :=
  ((zipWindows (find_utf8_chunk_boundaries data CHUNK_SIZE)).map
    (fun w => chars_of_chunk (sliceBytes data w.1 w.2))).sum

/-- src/count.rs:216 `count_chars`. -/
def count_chars (data : List Nat) : Nat :=
  if data = [] then 0
  else if data.length < PARALLEL_THRESHOLD then chars_seq data
  else chars_par data

/-- `text.split(|c: char| c.is_whitespace())`: split at every Unicode
whitespace scalar (adjacent separators yield empty pieces). -/
def splitOnWS : List Nat → List (List Nat)
  | [] => [[]]
  | c :: rest =>
    if isUnicodeWhitespace c then [] :: splitOnWS rest
    else
      match splitOnWS rest with
      | [] => [[c]]
      | r :: rs => (c :: r) :: rs

/-- The `.filter(|w| !w.is_empty())` tokenisation of src/count.rs:293/308. -/
def tokensOf (text : List Nat) : List (List Nat) :=
  (splitOnWS text).filter (fun w => !w.isEmpty)

/-- The sequential branch of src/count.rs:286 `count_unique_words` (the
`HashSet` cardinality is the number of distinct tokens). -/
def unique_seq (data : List Nat) : Nat :=
  match utf8Decode data with
  | none => 0
  | some text => (tokensOf text).dedup.length

/-- The chunked set-union computation of src/count.rs:300-322 (per-chunk
tokens, `from_utf8(chunk).unwrap_or("")`, merged into one set). -/
def unique_par_core (data : List Nat) : Nat :=
  ((zipWindows (find_utf8_chunk_boundaries data CHUNK_SIZE)).flatMap
    (fun w => tokensOf ((utf8Decode (sliceBytes data w.1 w.2)).getD []))).dedup.length

/-- The parallel path of src/count.rs:286 `count_unique_words` (top decode
guard followed by the chunked computation). -/
def unique_par (data : List Nat) : Nat :=
  match utf8Decode data with
  | none => 0
  | some _ => unique_par_core data

/-- src/count.rs:286 `count_unique_words`. -/
def count_unique_words (data : List Nat) : Nat :=
  match utf8Decode data with
  | none => 0
  | some text =>
    if data.length < PARALLEL_THRESHOLD then (tokensOf text).dedup.length
    else unique_par_core data

/-- The recursion of `memmem::Finder::find_iter`, structural on a fuel
argument (each step consumes at least one byte, so the fuel `l.length` used by
`findIterPos` is never exhausted). -/
def findIterPosF (pat : List Nat) : Nat → List Nat → Nat → List Nat
  | 0, _, _ => []
  | _ + 1, [], _ => []
  | fuel + 1, d :: ds, off =>
    if pat ≠ [] ∧ pat.isPrefixOf (d :: ds) then
      off :: findIterPosF pat fuel ((d :: ds).drop pat.length) (off + pat.length)
    else findIterPosF pat fuel ds (off + 1)

/-- `memmem::Finder::find_iter`: start offsets of the leftmost non-overlapping
occurrences of `pat` (`off` is the running absolute offset).  `count_pattern`
only ever calls this with a non-empty pattern. -/
def findIterPos (pat l : List Nat) (off : Nat) : List Nat :=
  findIterPosF pat l.length l off

/-- `finder.find_iter(chunk).count()`. -/
def findIterCount (pat l : List Nat) : Nat := (findIterPos pat l 0).length

/-- The sequential branch of src/count.rs:172 `count_pattern`. -/
def pattern_seq (data pat : List Nat) : Nat := findIterCount pat data

/-- src/count.rs:183 `data.len().div_ceil(CHUNK_SIZE)`. -/
def numChunks (data : List Nat) : Nat :=
  (data.length + CHUNK_SIZE - 1) / CHUNK_SIZE

/-- The per-chunk sum of src/count.rs:184-192. -/
def patChunkSum (data pat : List Nat) : Nat :=
  ((List.range (numChunks data)).map (fun i =>
    findIterCount pat
      (sliceBytes data (i * CHUNK_SIZE) (min ((i + 1) * CHUNK_SIZE) data.length)))).sum

/-- The rescan of src/count.rs:196-210 at one boundary `b`: matches of the
window `[b - (len-1), b + (len-1))` (clipped) whose start is strictly before
and end strictly after `b`. -/
def patBoundaryMatches (data pat : List Nat) (b : Nat) : Nat :=
  let ss := b - (pat.length - 1)
  let se := min (b + (pat.length - 1)) data.length
  if ss ≥ se then 0
  else ((findIterPos pat (sliceBytes data ss se) 0).filter
    (fun q => decide (ss + q < b) && decide (b < ss + q + pat.length))).length

/-- The `for i in 1..num_chunks` boundary loop of src/count.rs:195-211. -/
def patBoundarySum (data pat : List Nat) : Nat :=
  ((List.range' 1 (numChunks data - 1)).map
    (fun i => patBoundaryMatches data pat (i * CHUNK_SIZE))).sum

/-- The parallel branch of src/count.rs:172 `count_pattern`. -/
def pattern_par (data pat : List Nat) : Nat :=
  patChunkSum data pat + patBoundarySum data pat

/-- src/count.rs:172 `count_pattern`. -/
def count_pattern (data pat : List Nat) : Nat :=
  if data = [] ∨ pat = [] then 0
  else if data.length < PARALLEL_THRESHOLD then pattern_seq data pat
  else pattern_par data pat

/-- Indicator: does some occurrence of `pat` in `data` straddle offset `b`
(start strictly before `b`, end strictly after `b`)?  Used to state what the
boundary rescan must add. -/
def straddleInd (data pat : List Nat) (b : Nat) : Nat :=
  if (List.range b).any
      (fun p => pat.isPrefixOf (data.drop p) && decide (b < p + pat.length))
  then 1 else 0

/-- src/count.rs:325 `struct Statistics`.  The two `f64` fields are modelled
exactly: the mean as a rational, the standard deviation as a real number
(floating-point rounding and summation order are not modelled). -/
structure Statistics where
  mean_line_length : ℚ
  median_line_length : Nat
  std_dev : ℝ
  min_line_length : Nat
  max_line_length : Nat
  empty_lines : Nat

/-- src/count.rs:357-409: the statistics computed from the merged line-length
list: empty-line count, mean, population variance, standard deviation, and
(after ascending sort — `sort_unstable` on `usize`, whose result is the unique
sorted permutation, here `insertionSort`) median with integer division,
min/max as the sorted endpoints. -/
noncomputable def calcStatsOfLengths (ll : List Nat) : Statistics :=
  if ll = [] then ⟨0, 0, 0, 0, 0, 0⟩
  else
    let mean : ℚ := (ll.sum : ℚ) / ll.length
    let variance : ℚ := ((ll.map (fun l => ((l : ℚ) - mean) ^ 2)).sum) / ll.length
    let sorted := ll.insertionSort (· ≤ ·)
    let median := if sorted.length % 2 = 0 then
        (sorted.getD (sorted.length / 2 - 1) 0 + sorted.getD (sorted.length / 2) 0) / 2
      else sorted.getD (sorted.length / 2) 0
    ⟨mean, median, Real.sqrt (variance : ℝ), sorted.headD 0, sorted.getLastD 0,
     ll.countP (fun l => l == 0)⟩

/-- src/count.rs:334 `calculate_statistics` (both early returns produce the
all-zero record, which `calcStatsOfLengths []` also returns). -/
noncomputable def calculate_statistics (data : List Nat) : Statistics :=
  if data = [] then ⟨0, 0, 0, 0, 0, 0⟩
  else calcStatsOfLengths
    (if data.length < PARALLEL_THRESHOLD then collect_line_lengths_chunk data
     else lengths_par data)

/-- One line as yielded by `str::lines`: the `\n` terminator is removed by the
split and a single trailing `\r` is removed only from `\n`-terminated pieces;
a final empty piece (after a trailing `\n`) is not yielded. -/
def stripCR (r : List Nat) : List Nat :=
  if r.getLast? = some 13 then r.dropLast else r

/-- `text.lines()` over decoded text. -/
def linesOf (text : List Nat) : List (List Nat) :=
  (splitLines text).dropLast.map stripCR ++
    (if (splitLines text).getLastD [] = [] then []
     else [(splitLines text).getLastD []])

/-- `str::trim_start` (Unicode whitespace). -/
def trimStartWS (l : List Nat) : List Nat := l.dropWhile isUnicodeWhitespace

/-- `str::trim_end` (Unicode whitespace). -/
def trimEndWS (l : List Nat) : List Nat :=
  (l.reverse.dropWhile isUnicodeWhitespace).reverse

/-- `str::trim`. -/
def trimWS (l : List Nat) : List Nat := trimEndWS (trimStartWS l)

/-- `str::find(marker)`: leftmost start index of `marker` (some 0 for an empty
marker, as in Rust). -/
def findSub (pat : List Nat) : List Nat → Option Nat
  | [] => if pat.isEmpty then some 0 else none
  | d :: ds => if pat.isPrefixOf (d :: ds) then some 0 else (findSub pat ds).map (· + 1)

/-- The `while let Some(pos) = s[start..].find(marker)` loop of
src/count.rs:488 `find_comment_marker`, with fuel (each retry advances `start`
by at least one; `start` never exceeds `s.len()` for the non-empty markers
used, so fuel `s.length + 1` is never exhausted). -/
def fcmAuxF (s marker : List Nat) (reqWS : Bool) : Nat → Nat → Option Nat
  | 0, _ => none
  | fuel + 1, start =>
    match findSub marker (s.drop start) with
    | none => none
    | some pos =>
      if !reqWS || start + pos == 0 ||
          ((s.take (start + pos)).getLast?.all isUnicodeWhitespace) then
        some (start + pos)
      else fcmAuxF s marker reqWS fuel (start + pos + 1)

/-- src/count.rs:488 `find_comment_marker` (`is_none_or(|c| c.is_whitespace())`
is `Option.all`). -/
def find_comment_marker (s marker : List Nat) (reqWS : Bool) : Option Nat :=
  fcmAuxF s marker reqWS (s.length + 1) 0

/-- The comment-filter line state of src/count.rs:513-515
(`in_multiline_c_comment`, `in_python_docstring` + `docstring_marker`; the two
flags are never both set). -/
inductive FState
  | normal
  | inComment
  | inDocstring (marker : List Nat)

/-- The `while !current.is_empty()` loop of src/count.rs:521-594 over one
line, with fuel (every iteration that loops again strictly shrinks `current`,
so fuel `line.length + 1` is never exhausted).  Marker kinds: 0 = line comment
(`//`, `#`, `--`), 1 = `/*`, 2 = three double quotes, 3 = three single
quotes.  The fold implements `min_by_key` (first strictly-smallest position;
two distinct markers can never share a position since their first characters
differ). -/
def processLineF : Nat → FState → List Nat → List Nat → FState × List Nat
  | 0, st, _, acc => (st, acc)
  | fuel + 1, st, current, acc =>
    if current = [] then (st, acc)
    else
      match st with
      | FState.inComment =>
        match findSub [42, 47] current with
        | some pos => processLineF fuel FState.normal (current.drop (pos + 2)) acc
        | none => (FState.inComment, acc)
      | FState.inDocstring m =>
        match findSub m current with
        | some pos => processLineF fuel FState.normal (current.drop (pos + m.length)) acc
        | none => (FState.inDocstring m, acc)
      | FState.normal =>
        let cands : List (Option Nat × Nat) :=
          [(find_comment_marker current [47, 47] true, 0),
           (find_comment_marker current [35] true, 0),
           (find_comment_marker current [45, 45] true, 0),
           (find_comment_marker current [47, 42] true, 1),
           (findSub [34, 34, 34] current, 2),
           (findSub [39, 39, 39] current, 3)]
        match cands.foldl (fun best c =>
            match c.1, best with
            | none, b => b
            | some p, none => some (p, c.2)
            | some p, some q => if p < q.1 then some (p, c.2) else best) none with
        | none => (FState.normal, acc ++ current)
        | some pk =>
          let acc2 := acc ++ current.take pk.1
          if pk.2 = 0 then (FState.normal, acc2)
          else if pk.2 = 1 then
            match findSub [42, 47] (current.drop (pk.1 + 2)) with
            | some e =>
              processLineF fuel FState.normal ((current.drop (pk.1 + 2)).drop (e + 2)) acc2
            | none => (FState.inComment, acc2)
          else if pk.2 = 2 then
            match findSub [34, 34, 34] (current.drop (pk.1 + 3)) with
            | some e =>
              processLineF fuel FState.normal ((current.drop (pk.1 + 3)).drop (e + 3)) acc2
            | none => (FState.inDocstring [34, 34, 34], acc2)
          else
            match findSub [39, 39, 39] (current.drop (pk.1 + 3)) with
            | some e =>
              processLineF fuel FState.normal ((current.drop (pk.1 + 3)).drop (e + 3)) acc2
            | none => (FState.inDocstring [39, 39, 39], acc2)

/-- One line of src/count.rs:517-594. -/
def processLine (st : FState) (line : List Nat) : FState × List Nat :=
  processLineF (line.length + 1) st line []

/-- The per-line emission of src/count.rs:596-600: trim the end, emit
`trimmed` plus a newline only when a non-whitespace residue remains. -/
def fccGo : FState → List (List Nat) → List Nat
  | _, [] => []
  | st, l :: ls =>
    (if trimStartWS (trimEndWS (processLine st l).2) = [] then []
     else utf8Encode (trimEndWS (processLine st l).2) ++ [10]) ++
    fccGo (processLine st l).1 ls

/-- src/count.rs:506 `filter_code_comments` (non-UTF-8 input is returned
unchanged). -/
def filter_code_comments (data : List Nat) : List Nat :=
  match utf8Decode data with
  | none => data
  | some text => fccGo FState.normal (linesOf text)

/-- The backtick-toggling loop of src/count.rs:635 `filter_inline_code`. -/
def inlineAux : List Nat → Bool → List Nat
  | [], _ => []
  | c :: rest, inCode =>
    if c == 96 then inlineAux rest (!inCode)
    else if inCode then inlineAux rest inCode
    else c :: inlineAux rest inCode

/-- src/count.rs:635 `filter_inline_code`. -/
def filter_inline_code (line : List Nat) : List Nat := inlineAux line false

/-- `line.trim().starts_with("```")` of src/count.rs:618. -/
def isFenceLine (line : List Nat) : Bool := [96, 96, 96].isPrefixOf (trimWS line)

/-- The per-line loop of src/count.rs:615-630 (`in_code_block` toggling,
emission of filtered lines each followed by one `\n`). -/
def mdGo : Bool → List (List Nat) → List Nat
  | _, [] => []
  | inBlock, l :: ls =>
    if isFenceLine l then mdGo (!inBlock) ls
    else if inBlock then mdGo inBlock ls
    else utf8Encode (filter_inline_code l) ++ [10] ++ mdGo inBlock ls

/-- src/count.rs:606 `filter_markdown_code` (non-UTF-8 input is returned
unchanged). -/
def filter_markdown_code (data : List Nat) : List Nat :=
  match utf8Decode data with
  | none => data
  | some text => mdGo false (linesOf text)

/-- Specification-side restatement of the markdown filter's kept lines:
non-fence lines outside fenced blocks, in original order, after inline
backtick-span removal (§4.7 of the spec). -/
def keptMarkdownLines : Bool → List (List Nat) → List (List Nat)
  | _, [] => []
  | inBlock, l :: ls =>
    if isFenceLine l then keptMarkdownLines (!inBlock) ls
    else if inBlock then keptMarkdownLines inBlock ls
    else filter_inline_code l :: keptMarkdownLines inBlock ls

/-- C4's buffer: `CHUNK_SIZE - 1` repetitions of `a` followed by `b`, `c`
(src/count.rs:781 `test_chunk_boundary_words`). -/
def exData1 : List Nat := List.replicate (CHUNK_SIZE - 1) 97 ++ [98, 99]

/-- C4's buffer with the byte before the cut replaced by a space. -/
def exData2 : List Nat := List.replicate (CHUNK_SIZE - 1) 97 ++ [32, 99]

/-- A word-count seq/par mismatch: a three-byte Unicode whitespace character
(U+2003) starting exactly at the chunk boundary. -/
def exWordsData : List Nat := List.replicate CHUNK_SIZE 97 ++ [226, 128, 131, 98]

/-- A unique-words seq/par mismatch: one word cut by the chunk boundary. -/
def exUniqueData : List Nat := List.replicate CHUNK_SIZE 97 ++ [98]

/-- A char-count mismatch: a valid two-byte-character prefix filling the first
chunk, followed by one invalid byte. -/
def exCharsData : List Nat :=
  (List.replicate (CHUNK_SIZE / 2) [195, 169]).flatten ++ [255]

/-- A pattern-count seq/par mismatch: `aa` searched in a run of `a`s crossing
the chunk boundary. -/
def exPatData : List Nat := List.replicate (CHUNK_SIZE + 2) 97

/-- C2's buffer: four lines of lengths 1, 2, 3, 4 (no trailing newline). -/
def exStatData : List Nat := [97, 10, 98, 98, 10, 99, 99, 99, 10, 100, 100, 100, 100]

/-! ### Record-split lemmas -/

theorem splitLines_ne_nil (l : List Nat) : splitLines l ≠ [] := by
  cases l with
  | nil => simp [splitLines]
  | cons b rest =>
    simp only [splitLines]
    split
    · simp
    · split <;> simp

theorem length_splitLines (l : List Nat) :
    (splitLines l).length = l.count 10 + 1 := by
  induction l with
  | nil => simp [splitLines]
  | cons b rest ih =>
    by_cases hb : b = 10
    · subst hb
      simp [splitLines, List.count_cons, ih]
    · have hb' : (b == 10) = false := by simpa using hb
      cases hsr : splitLines rest with
      | nil => exact absurd hsr (splitLines_ne_nil rest)
      | cons r rs =>
        rw [hsr] at ih
        simp only [splitLines, hb', if_false, hsr, Bool.false_eq_true, List.length_cons,
          List.count_cons]
        simp only [List.length_cons] at ih
        simp [hb', ih]

theorem splitLines_cons_nl (l : List Nat) :
    splitLines (10 :: l) = [] :: splitLines l := by
  simp [splitLines]

theorem splitLines_cons_other (b : Nat) (l : List Nat) (hb : b ≠ 10) :
    splitLines (b :: l) =
      (b :: (splitLines l).headD []) :: (splitLines l).tail := by
  have hb' : (b == 10) = false := by simpa using hb
  cases hsr : splitLines l with
  | nil => exact absurd hsr (splitLines_ne_nil l)
  | cons r rs => simp [splitLines, hb', hsr]

theorem splitLines_append (xs ys : List Nat) (h : xs.getLast? = some 10) :
    splitLines (xs ++ ys) = (splitLines xs).dropLast ++ splitLines ys := by
  induction xs with
  | nil => simp at h
  | cons b rest ih =>
    cases rest with
    | nil =>
      have hb : b = 10 := by simpa using h
      subst hb
      simp [splitLines]
    | cons c rest' =>
      have h' : (c :: rest').getLast? = some 10 := by
        rwa [List.getLast?_cons_cons] at h
      have ihx := ih h'
      have hne := splitLines_ne_nil (c :: rest')
      by_cases hb : b = 10
      · subst hb
        rw [List.cons_append, splitLines_cons_nl, splitLines_cons_nl, ihx,
          List.dropLast_cons_of_ne_nil hne, List.cons_append]
      · -- since (c :: rest') ends with 10, its split has at least two records
        have hmem : 10 ∈ c :: rest' := List.mem_of_mem_getLast? h'
        have hlen : 2 ≤ (splitLines (c :: rest')).length := by
          rw [length_splitLines]
          have : 1 ≤ (c :: rest').count 10 := List.one_le_count_iff.mpr hmem
          omega
        cases hsr : splitLines (c :: rest') with
        | nil => exact absurd hsr (splitLines_ne_nil _)
        | cons r rs =>
          cases hrs2 : rs with
          | nil =>
            rw [hsr, hrs2] at hlen
            simp at hlen
          | cons r2 rs2 =>
            rw [hsr, hrs2] at ihx
            rw [List.cons_append, splitLines_cons_other b _ hb,
              splitLines_cons_other b _ hb, ihx, hsr, hrs2]
            simp [List.dropLast_cons_of_ne_nil]

theorem splitLines_getLast_of_nl (xs : List Nat) (h : xs.getLast? = some 10) :
    (splitLines xs).getLast? = some [] := by
  have := splitLines_append xs [] h
  rw [List.append_nil] at this
  rw [this]
  have : splitLines ([] : List Nat) = [[]] := by simp [splitLines]
  rw [this, List.getLast?_concat]

theorem collect_of_last_nl (xs : List Nat) (h : xs.getLast? = some 10) :
    collect_line_lengths_chunk xs = (splitLines xs).dropLast.map recLen := by
  unfold collect_line_lengths_chunk
  simp [List.getLastD_eq_getLast?, splitLines_getLast_of_nl xs h]

theorem getLastD_splitLines_append (xs ys : List Nat) (h : xs.getLast? = some 10) :
    (splitLines (xs ++ ys)).getLastD [] = (splitLines ys).getLastD [] := by
  rw [splitLines_append xs ys h, List.getLastD_eq_getLast?, List.getLastD_eq_getLast?,
    List.getLast?_append]
  cases hsy : (splitLines ys).getLast? with
  | none => exact absurd (List.getLast?_eq_none_iff.mp hsy) (splitLines_ne_nil ys)
  | some v => rfl

theorem dropLast_splitLines_append (xs ys : List Nat) (h : xs.getLast? = some 10) :
    (splitLines (xs ++ ys)).dropLast =
      (splitLines xs).dropLast ++ (splitLines ys).dropLast := by
  rw [splitLines_append xs ys h,
    List.dropLast_append_of_ne_nil _ (splitLines_ne_nil ys)]

theorem collect_append (xs ys : List Nat) (h : xs.getLast? = some 10) :
    collect_line_lengths_chunk (xs ++ ys) =
      collect_line_lengths_chunk xs ++ collect_line_lengths_chunk ys := by
  rw [collect_of_last_nl xs h]
  unfold collect_line_lengths_chunk
  rw [dropLast_splitLines_append xs ys h, getLastD_splitLines_append xs ys h,
    List.map_append, List.append_assoc]

theorem blanks_append (xs ys : List Nat) (h : xs.getLast? = some 10) :
    count_blank_lines_chunk (xs ++ ys) =
      count_blank_lines_chunk xs + count_blank_lines_chunk ys := by
  unfold count_blank_lines_chunk
  rw [dropLast_splitLines_append xs ys h, getLastD_splitLines_append xs ys h,
    List.countP_append]
  simp [List.getLastD_eq_getLast?, splitLines_getLast_of_nl xs h]
  omega

theorem foldr_max_init (l : List Nat) (e : Nat) :
    l.foldr max e = max (l.foldr max 0) e := by
  induction l with
  | nil => simp
  | cons a l ih => simp [ih, Nat.max_assoc]

theorem maxlen_append (xs ys : List Nat) (h : xs.getLast? = some 10) :
    max_line_length_chunk (xs ++ ys) =
      max (max_line_length_chunk xs) (max_line_length_chunk ys) := by
  unfold max_line_length_chunk
  rw [collect_append xs ys h, List.foldr_append, foldr_max_init]

theorem hist_append (xs ys : List Nat) (b : Nat) (h : xs.getLast? = some 10) :
    generate_histogram_chunk (xs ++ ys) b =
      generate_histogram_chunk xs b + generate_histogram_chunk ys b := by
  unfold generate_histogram_chunk
  rw [collect_append xs ys h, List.map_append, List.count_append]

/-! ### Slice lemmas -/

theorem sliceBytes_self (data : List Nat) (a : Nat) : sliceBytes data a a = [] := by
  simp [sliceBytes]

theorem sliceBytes_all (data : List Nat) : sliceBytes data 0 data.length = data := by
  simp [sliceBytes]

theorem sliceBytes_append (data : List Nat) (a b c : Nat) (hab : a ≤ b) (hbc : b ≤ c) :
    sliceBytes data a b ++ sliceBytes data b c = sliceBytes data a c := by
  unfold sliceBytes
  have hd : data.drop b = (data.drop a).drop (b - a) := by
    rw [List.drop_drop]
    congr 1
    omega
  rw [hd]
  have : c - a = (b - a) + (c - b) := by omega
  rw [this, List.take_add]

theorem sliceBytes_getLast (data : List Nat) (a b : Nat) (hab : a < b)
    (hb : b ≤ data.length) :
    (sliceBytes data a b).getLast? = some (data.getD (b - 1) 0) := by
  unfold sliceBytes
  rw [List.getLast?_eq_getElem?]
  have hlen : ((data.drop a).take (b - a)).length = b - a := by
    simp
    omega
  rw [hlen, List.getElem?_take, List.getElem?_drop]
  have h1 : b - a - 1 < b - a := by omega
  rw [if_pos h1]
  have h2 : a + (b - a - 1) = b - 1 := by omega
  rw [h2, List.getD_eq_getElem?_getD]
  have h3 : b - 1 < data.length := by omega
  rw [List.getElem?_eq_getElem h3]
  rfl

theorem sliceBytes_length (data : List Nat) (a b : Nat) (hb : b ≤ data.length)
    (hab : a ≤ b) : (sliceBytes data a b).length = b - a := by
  simp [sliceBytes]
  omega

/-! ### The line-aligned chunk decomposition -/

/-- Folding a scanner over the pieces of any valid line-aligned boundary list
reproduces the whole-buffer scan, provided the scanner splits at cuts that
immediately follow a newline. -/
theorem windows_decomp {M : Type} (op : M → M → M) (e : M) (f : List Nat → M)
    (hf0 : f [] = e) (hope : ∀ m, op m e = m)
    (hcut : ∀ xs ys, xs.getLast? = some 10 → f (xs ++ ys) = op (f xs) (f ys))
    (data : List Nat) :
    ∀ B a, B.head? = some a → B.getLast? = some data.length →
      B.Chain' (· < ·) → (∀ x ∈ B, x ≤ data.length) →
      (∀ x ∈ B, 0 < x → x < data.length → data.getD (x - 1) 0 = 10) →
      ((zipWindows B).map (fun w => f (sliceBytes data w.1 w.2))).foldr op e
        = f (sliceBytes data a data.length) := by
  intro B
  induction B with
  | nil => intro a h0; simp at h0
  | cons b0 rest ih =>
    intro a h0 hlast hchain hle h10
    have hb0 : b0 = a := by simpa using h0
    subst hb0
    cases rest with
    | nil =>
      have ha : b0 = data.length := by simpa using hlast
      subst ha
      simp [zipWindows, sliceBytes_self, hf0]
    | cons b1 rest' =>
      have hz : zipWindows (b0 :: b1 :: rest') = (b0, b1) :: zipWindows (b1 :: rest') := by
        simp [zipWindows]
      have hchain' := (List.chain'_cons.mp hchain)
      have hab : b0 < b1 := hchain'.1
      have hlast' : (b1 :: rest').getLast? = some data.length := by
        rwa [List.getLast?_cons_cons] at hlast
      have ih' := ih b1 (by simp) hlast' hchain'.2
        (fun x hx => hle x (List.mem_cons_of_mem _ hx))
        (fun x hx => h10 x (List.mem_cons_of_mem _ hx))
      rw [hz, List.map_cons, List.foldr_cons, ih']
      by_cases hbl : b1 = data.length
      · subst hbl
        rw [sliceBytes_self, hf0, hope]
      · have hb1le : b1 ≤ data.length := hle b1 (by simp)
        have hb1lt : b1 < data.length := lt_of_le_of_ne hb1le hbl
        have h10' : data.getD (b1 - 1) 0 = 10 :=
          h10 b1 (by simp) (Nat.lt_of_le_of_lt (Nat.zero_le b0) hab) hb1lt
        have hlastslice : (sliceBytes data b0 b1).getLast? = some 10 := by
          rw [sliceBytes_getLast data b0 b1 hab hb1le, h10']
        rw [← sliceBytes_append data b0 b1 data.length (le_of_lt hab) (le_of_lt hb1lt),
          hcut _ _ hlastslice]

/-! ### Invariants of the line-aligned planner -/

theorem memchrIdx_spec (l : List Nat) (i : Nat) (h : memchrIdx l = some i) :
    i < l.length ∧ l.getD i 0 = 10 := by
  induction l generalizing i with
  | nil => simp [memchrIdx] at h
  | cons b rest ih =>
    by_cases hb : b = 10
    · subst hb
      simp [memchrIdx] at h
      subst h
      simp [List.getD_eq_getElem?_getD]
    · have hb' : (b == 10) = false := by simpa using hb
      simp only [memchrIdx, hb', Bool.false_eq_true, if_false] at h
      cases hmr : memchrIdx rest with
      | none => rw [hmr] at h; simp at h
      | some j =>
        rw [hmr] at h
        simp only [Option.map_some'] at h
        obtain rfl : j + 1 = i := by simpa using h
        obtain ⟨h1, h2⟩ := ih j hmr
        refine ⟨by simpa using h1, ?_⟩
        simpa [List.getD_eq_getElem?_getD] using h2

theorem memchrFrom_spec (data : List Nat) (pos nl : Nat)
    (h : memchrFrom data pos = some nl) :
    pos ≤ nl ∧ nl < data.length ∧ data.getD nl 0 = 10 := by
  unfold memchrFrom at h
  cases hmi : memchrIdx (data.drop pos) with
  | none => rw [hmi] at h; simp at h
  | some j =>
    rw [hmi] at h
    simp only [Option.map_some'] at h
    obtain rfl : pos + j = nl := by simpa using h
    obtain ⟨h1, h2⟩ := memchrIdx_spec _ _ hmi
    refine ⟨Nat.le_add_right _ _, ?_, ?_⟩
    · have := List.length_drop pos data
      omega
    · rw [List.getD_eq_getElem?_getD] at h2 ⊢
      rwa [List.getElem?_drop] at h2

theorem lineBdAuxF_spec (data : List Nat) (cs : Nat) :
    ∀ fuel pos,
      (∀ x ∈ lineBdAuxF data cs fuel pos, pos < x ∧ x ≤ data.length) ∧
      (lineBdAuxF data cs fuel pos).Chain' (· < ·) ∧
      (∀ x ∈ lineBdAuxF data cs fuel pos, x < data.length → data.getD (x - 1) 0 = 10) := by
  intro fuel
  induction fuel with
  | zero => intro pos; simp [lineBdAuxF]
  | succ fuel ih =>
    intro pos
    by_cases hp : pos < data.length
    · cases hm : memchrFrom data pos with
      | some nl =>
        obtain ⟨ih1, ih2, ih3⟩ := ih (nl + 1 + cs)
        obtain ⟨hnl1, hnl2, hnl3⟩ := memchrFrom_spec data pos nl hm
        have hunf : lineBdAuxF data cs (fuel + 1) pos
            = (nl + 1) :: lineBdAuxF data cs fuel (nl + 1 + cs) := by
          simp [lineBdAuxF, hp, hm]
        rw [hunf]
        refine ⟨?_, ?_, ?_⟩
        · intro x hx
          rcases List.mem_cons.mp hx with rfl | hx
          · exact ⟨by omega, by omega⟩
          · have h1 := (ih1 x hx).1
            have h2 := (ih1 x hx).2
            omega
        · rw [List.chain'_cons']
          refine ⟨?_, ih2⟩
          intro y hy
          have hym := List.mem_of_mem_head? hy
          have := (ih1 y hym).1
          omega
        · intro x hx hxlen
          rcases List.mem_cons.mp hx with rfl | hx
          · simpa using hnl3
          · exact ih3 x hx hxlen
      | none =>
        obtain ⟨ih1, ih2, ih3⟩ := ih (data.length + cs)
        have hunf : lineBdAuxF data cs (fuel + 1) pos
            = data.length :: lineBdAuxF data cs fuel (data.length + cs) := by
          simp [lineBdAuxF, hp, hm]
        rw [hunf]
        refine ⟨?_, ?_, ?_⟩
        · intro x hx
          rcases List.mem_cons.mp hx with rfl | hx
          · exact ⟨hp, le_refl _⟩
          · have h1 := (ih1 x hx).1
            have h2 := (ih1 x hx).2
            omega
        · rw [List.chain'_cons']
          refine ⟨?_, ih2⟩
          intro y hy
          have hym := List.mem_of_mem_head? hy
          have := (ih1 y hym).1
          omega
        · intro x hx hxlen
          rcases List.mem_cons.mp hx with rfl | hx
          · omega
          · exact ih3 x hx hxlen
    · simp [lineBdAuxF, hp]

theorem find_line_boundaries_head (data : List Nat) (cs : Nat) :
    (find_line_boundaries data cs).head? = some 0 := by
  unfold find_line_boundaries
  split
  · rfl
  · rfl

theorem find_line_boundaries_getLast (data : List Nat) (cs : Nat) :
    (find_line_boundaries data cs).getLast? = some data.length := by
  unfold find_line_boundaries
  split
  · next hcond =>
    rw [List.getLastD_eq_getLast?] at hcond
    cases hl : (0 :: lineBdAuxF data cs (data.length + 1) cs).getLast? with
    | none => simp at hl
    | some v =>
      rw [hl] at hcond
      simp only [Option.getD_some] at hcond
      exact congrArg some hcond
  · exact List.getLast?_concat _

theorem find_line_boundaries_le (data : List Nat) (cs : Nat) :
    ∀ x ∈ find_line_boundaries data cs, x ≤ data.length := by
  have haux := (lineBdAuxF_spec data cs (data.length + 1) cs).1
  unfold find_line_boundaries
  intro x hx
  split at hx
  · rcases List.mem_cons.mp hx with rfl | hx
    · exact Nat.zero_le _
    · exact (haux x hx).2
  · rcases List.mem_append.mp hx with hx | hx
    · rcases List.mem_cons.mp hx with rfl | hx
      · exact Nat.zero_le _
      · exact (haux x hx).2
    · have : x = data.length := by simpa using hx
      omega

theorem find_line_boundaries_chain (data : List Nat) (cs : Nat) :
    (find_line_boundaries data cs).Chain' (· < ·) := by
  obtain ⟨haux1, haux2, _⟩ := lineBdAuxF_spec data cs (data.length + 1) cs
  have hchain0 : (0 :: lineBdAuxF data cs (data.length + 1) cs).Chain' (· < ·) := by
    rw [List.chain'_cons']
    refine ⟨?_, haux2⟩
    intro y hy
    have := (haux1 y (List.mem_of_mem_head? hy)).1
    omega
  unfold find_line_boundaries
  split
  · exact hchain0
  · next hcond =>
    rw [List.chain'_append]
    refine ⟨hchain0, List.chain'_singleton _, ?_⟩
    intro x hx y hy
    have hy' : y = data.length := by
      have := List.mem_of_mem_head? hy
      simpa using this
    subst hy'
    rw [List.getLastD_eq_getLast?] at hcond
    rw [hx] at hcond
    simp only [Option.getD_some] at hcond
    have hxle : x ≤ data.length := by
      have := List.mem_of_mem_getLast? hx
      rcases List.mem_cons.mp this with rfl | hmem
      · exact Nat.zero_le _
      · exact (haux1 x hmem).2
    omega

theorem find_line_boundaries_nl (data : List Nat) (cs : Nat) :
    ∀ x ∈ find_line_boundaries data cs, 0 < x → x < data.length →
      data.getD (x - 1) 0 = 10 := by
  have haux := (lineBdAuxF_spec data cs (data.length + 1) cs).2.2
  unfold find_line_boundaries
  intro x hx hx0 hxlen
  split at hx
  · rcases List.mem_cons.mp hx with rfl | hx
    · omega
    · exact haux x hx hxlen
  · rcases List.mem_append.mp hx with hx | hx
    · rcases List.mem_cons.mp hx with rfl | hx
      · omega
      · exact haux x hx hxlen
    · have : x = data.length := by simpa using hx
      omega

/-- Any scanner that is `(op, e)`-additive at newline cuts gives the same
result summed over the pieces of `find_line_boundaries` as on the whole
buffer. -/
theorem line_planner_decomp {M : Type} (op : M → M → M) (e : M) (f : List Nat → M)
    (hf0 : f [] = e) (hope : ∀ m, op m e = m)
    (hcut : ∀ xs ys, xs.getLast? = some 10 → f (xs ++ ys) = op (f xs) (f ys))
    (data : List Nat) :
    ((zipWindows (find_line_boundaries data CHUNK_SIZE)).map
      (fun w => f (sliceBytes data w.1 w.2))).foldr op e = f data := by
  have h := windows_decomp op e f hf0 hope hcut data
    (find_line_boundaries data CHUNK_SIZE) 0
    (find_line_boundaries_head data CHUNK_SIZE)
    (find_line_boundaries_getLast data CHUNK_SIZE)
    (find_line_boundaries_chain data CHUNK_SIZE)
    (find_line_boundaries_le data CHUNK_SIZE)
    (find_line_boundaries_nl data CHUNK_SIZE)
  rwa [sliceBytes_all] at h

/-! ### Sequential = parallel for the line-aligned statistics -/

theorem chunksExact_flatten (cs : Nat) (hcs : cs ≠ 0) :
    ∀ (n : Nat) (data : List Nat), data.length ≤ n →
      (chunksExact cs data).flatten = data := by
  intro n
  induction n with
  | zero =>
    intro data h
    have hd : data = [] := by
      cases data with
      | nil => rfl
      | cons a l => simp at h
    subst hd
    rw [chunksExact]
    simp
  | succ n ih =>
    intro data h
    by_cases hd : data = []
    · subst hd
      rw [chunksExact]
      simp
    · rw [chunksExact, dif_neg (by simp [hd, hcs])]
      simp only [List.flatten_cons]
      rw [ih (data.drop cs) ?_, List.take_append_drop]
      have h1 : 0 < data.length := List.length_pos.mpr hd
      have h2 : 0 < cs := Nat.pos_of_ne_zero hcs
      simp only [List.length_drop]
      omega

theorem count_flatten_sum (a : Nat) (L : List (List Nat)) :
    L.flatten.count a = (L.map (fun l => l.count a)).sum := by
  induction L with
  | nil => simp
  | cons l ls ih => simp [List.count_append, ih]

/-- Sequential and parallel line counting agree on every buffer. -/
theorem lines_seq_eq_par (data : List Nat) : lines_seq data = lines_par data := by
  unfold lines_seq lines_par
  rw [← count_flatten_sum 10 (chunksExact CHUNK_SIZE data),
    chunksExact_flatten CHUNK_SIZE (by norm_num [CHUNK_SIZE]) data.length data (le_refl _)]

/-- Sequential and parallel blank-line counting agree on every buffer. -/
theorem blanks_seq_eq_par (data : List Nat) :
    count_blank_lines_chunk data = blanks_par data := by
  unfold blanks_par
  rw [List.sum_eq_foldr]
  exact (line_planner_decomp (· + ·) 0 count_blank_lines_chunk rfl
    (fun m => Nat.add_zero m) blanks_append data).symm

/-- Sequential and parallel max-line-length agree on every buffer. -/
theorem maxlen_seq_eq_par (data : List Nat) :
    max_line_length_chunk data = maxlen_par data := by
  unfold maxlen_par
  exact (line_planner_decomp max 0 max_line_length_chunk rfl
    (fun m => Nat.max_zero m) maxlen_append data).symm

/-- Sequential and parallel histograms agree bucket-wise on every buffer. -/
theorem hist_seq_eq_par (data : List Nat) (b : Nat) :
    generate_histogram_chunk data b = hist_par data b := by
  unfold hist_par
  rw [List.sum_eq_foldr]
  exact (line_planner_decomp (· + ·) 0 (fun l => generate_histogram_chunk l b) rfl
    (fun m => Nat.add_zero m) (fun xs ys h => hist_append xs ys b h) data).symm

theorem flatMap_eq_foldr {α β : Type} (l : List α) (f : α → List β) :
    l.flatMap f = (l.map f).foldr (· ++ ·) [] := by
  induction l with
  | nil => simp
  | cons a l ih => simp [ih]

/-- Sequential and parallel line-length lists agree on every buffer. -/
theorem lengths_seq_eq_par (data : List Nat) :
    collect_line_lengths_chunk data = lengths_par data := by
  unfold lengths_par
  rw [flatMap_eq_foldr]
  exact (line_planner_decomp (· ++ ·) [] collect_line_lengths_chunk rfl
    (fun m => List.append_nil m) collect_append data).symm

/-! ### UTF-8 decoding lemmas -/

theorem utf8DecodeF_cons_ascii (fuel b : Nat) (rest : List Nat) (hb : b < 128) :
    utf8DecodeF (fuel + 1) (b :: rest) = (utf8DecodeF fuel rest).map (b :: ·) := by
  rw [utf8DecodeF.eq_def]
  simp only []
  rw [if_pos hb]

theorem utf8DecodeF_cons_eacute (fuel : Nat) (rest : List Nat) :
    utf8DecodeF (fuel + 1) (195 :: 169 :: rest) =
      (utf8DecodeF fuel rest).map (233 :: ·) := by
  rw [utf8DecodeF.eq_def]
  simp only []
  norm_num

theorem utf8DecodeF_cons_emsp (fuel : Nat) (rest : List Nat) :
    utf8DecodeF (fuel + 1) (226 :: 128 :: 131 :: rest) =
      (utf8DecodeF fuel rest).map (8195 :: ·) := by
  rw [utf8DecodeF.eq_def]
  simp only []
  norm_num

theorem utf8DecodeF_cons_ff (fuel : Nat) (rest : List Nat) :
    utf8DecodeF (fuel + 1) (255 :: rest) = none := by
  rw [utf8DecodeF.eq_def]
  simp only []
  norm_num

theorem utf8DecodeF_succ : ∀ (fuel : Nat) (l : List Nat), l.length ≤ fuel →
    utf8DecodeF (fuel + 1) l = utf8DecodeF fuel l := by
  intro fuel
  induction fuel with
  | zero =>
    intro l h
    have hl : l = [] := List.length_eq_zero.mp (Nat.le_zero.mp h)
    subst hl
    rfl
  | succ fuel ih =>
    intro l h
    cases l with
    | nil => rfl
    | cons b rest =>
      simp only [List.length_cons] at h
      rw [utf8DecodeF.eq_def]
      conv_rhs => rw [utf8DecodeF.eq_def]
      simp only []
      by_cases h1 : b < 128
      · simp only [if_pos h1, ih rest (by omega)]
      · simp only [if_neg h1]
        by_cases h2 : b < 194
        · simp only [if_pos h2]
        · simp only [if_neg h2]
          by_cases h3 : b < 224
          · simp only [if_pos h3]
            cases rest with
            | nil => rfl
            | cons b1 rest1 =>
              simp only [List.length_cons] at h
              by_cases hc : 128 ≤ b1 ∧ b1 < 192
              · simp only [if_pos hc, ih rest1 (by omega)]
              · simp only [if_neg hc]
          · simp only [if_neg h3]
            by_cases h4 : b < 240
            · simp only [if_pos h4]
              cases rest with
              | nil => rfl
              | cons b1 rest' =>
                cases rest' with
                | nil => rfl
                | cons b2 rest2 =>
                  simp only [List.length_cons] at h
                  by_cases hc : (if b = 224 then 160 ≤ b1 ∧ b1 < 192
                      else if b = 237 then 128 ≤ b1 ∧ b1 < 160
                      else 128 ≤ b1 ∧ b1 < 192) ∧ 128 ≤ b2 ∧ b2 < 192
                  · simp only [if_pos hc, ih rest2 (by omega)]
                  · simp only [if_neg hc]
            · simp only [if_neg h4]
              by_cases h5 : b < 245
              · simp only [if_pos h5]
                cases rest with
                | nil => rfl
                | cons b1 rest' =>
                  cases rest' with
                  | nil => rfl
                  | cons b2 rest'' =>
                    cases rest'' with
                    | nil => rfl
                    | cons b3 rest3 =>
                      simp only [List.length_cons] at h
                      by_cases hc : (if b = 240 then 144 ≤ b1 ∧ b1 < 192
                          else if b = 244 then 128 ≤ b1 ∧ b1 < 144
                          else 128 ≤ b1 ∧ b1 < 192) ∧
                          128 ≤ b2 ∧ b2 < 192 ∧ 128 ≤ b3 ∧ b3 < 192
                      · simp only [if_pos hc, ih rest3 (by omega)]
                      · simp only [if_neg hc]
              · simp only [if_neg h5]

theorem utf8DecodeF_ge (fuel : Nat) (l : List Nat) (h : l.length ≤ fuel) :
    utf8DecodeF fuel l = utf8Decode l := by
  unfold utf8Decode
  obtain ⟨k, rfl⟩ : ∃ k, fuel = l.length + k := ⟨fuel - l.length, by omega⟩
  induction k with
  | zero => rfl
  | succ k ih =>
    rw [show l.length + (k + 1) = (l.length + k) + 1 by omega,
      utf8DecodeF_succ (l.length + k) l (by omega), ih (by omega)]

theorem utf8Decode_cons_ascii (b : Nat) (rest : List Nat) (hb : b < 128) :
    utf8Decode (b :: rest) = (utf8Decode rest).map (b :: ·) := by
  show utf8DecodeF (b :: rest).length (b :: rest) = _
  rw [List.length_cons, utf8DecodeF_cons_ascii _ _ _ hb,
    utf8DecodeF_ge _ _ (le_refl _)]

theorem utf8Decode_cons_eacute (rest : List Nat) :
    utf8Decode (195 :: 169 :: rest) = (utf8Decode rest).map (233 :: ·) := by
  show utf8DecodeF (195 :: 169 :: rest).length _ = _
  simp only [List.length_cons]
  rw [utf8DecodeF_cons_eacute, utf8DecodeF_succ _ _ (by omega),
    utf8DecodeF_ge _ _ (le_refl _)]

theorem utf8Decode_cons_emsp (rest : List Nat) :
    utf8Decode (226 :: 128 :: 131 :: rest) = (utf8Decode rest).map (8195 :: ·) := by
  show utf8DecodeF (226 :: 128 :: 131 :: rest).length _ = _
  simp only [List.length_cons]
  rw [utf8DecodeF_cons_emsp, utf8DecodeF_succ _ _ (by omega),
    utf8DecodeF_succ _ _ (by omega), utf8DecodeF_ge _ _ (le_refl _)]

theorem utf8Decode_cons_ff (rest : List Nat) :
    utf8Decode (255 :: rest) = none := by
  show utf8DecodeF (255 :: rest).length _ = _
  rw [List.length_cons, utf8DecodeF_cons_ff]

theorem utf8Decode_ascii_append (xs rest : List Nat) (h : ∀ b ∈ xs, b < 128) :
    utf8Decode (xs ++ rest) = (utf8Decode rest).map (xs ++ ·) := by
  induction xs with
  | nil =>
    simp only [List.nil_append]
    cases utf8Decode rest <;> simp
  | cons b xs ih =>
    have hb : b < 128 := h b (by simp)
    have hxs : ∀ x ∈ xs, x < 128 := fun x hx => h x (by simp [hx])
    rw [List.cons_append, utf8Decode_cons_ascii b _ hb, ih hxs]
    cases utf8Decode rest <;> simp

theorem utf8Decode_ascii (xs : List Nat) (h : ∀ b ∈ xs, b < 128) :
    utf8Decode xs = some xs := by
  have h0 : utf8Decode ([] : List Nat) = some [] := rfl
  have h2 := utf8Decode_ascii_append xs [] h
  rw [List.append_nil, h0] at h2
  simpa using h2

theorem utf8Decode_replicate_a (n : Nat) :
    utf8Decode (List.replicate n 97) = some (List.replicate n 97) :=
  utf8Decode_ascii _ (fun b hb => by rw [List.eq_of_mem_replicate hb]; norm_num)

theorem utf8Decode_eacute_append (n : Nat) (rest : List Nat) :
    utf8Decode ((List.replicate n [195, 169]).flatten ++ rest) =
      (utf8Decode rest).map (List.replicate n 233 ++ ·) := by
  induction n with
  | zero =>
    simp only [List.replicate, List.flatten_nil, List.nil_append]
    cases utf8Decode rest <;> simp
  | succ n ih =>
    rw [List.replicate_succ, List.flatten_cons, List.replicate_succ]
    have hshape : ([195, 169] : List Nat) ++ (List.replicate n [195, 169]).flatten ++ rest
        = 195 :: 169 :: ((List.replicate n [195, 169]).flatten ++ rest) := by
      simp
    rw [hshape, utf8Decode_cons_eacute, ih]
    cases utf8Decode rest <;> simp

/-! ### Word-count lemmas -/

theorem wordCountAux_append (ws : Nat → Bool) (xs ys : List Nat) (b : Bool) :
    wordCountAux ws (xs ++ ys) b =
      wordCountAux ws xs b + wordCountAux ws ys (wordEndState ws xs b) := by
  induction xs generalizing b with
  | nil => simp [wordCountAux, wordEndState]
  | cons c xs ih =>
    by_cases hc : ws c = true
    · simp [wordCountAux, hc, ih, wordEndState, List.foldl_cons]
    · have hc' : ws c = false := by simpa using hc
      cases b <;> simp [wordCountAux, hc', ih, wordEndState, List.foldl_cons] <;> omega

theorem wordCountAux_replicate_true (ws : Nat → Bool) (c : Nat) (n : Nat)
    (hc : ws c = false) :
    wordCountAux ws (List.replicate n c) true = 0 := by
  induction n with
  | zero => simp [wordCountAux]
  | succ n ih => simp [List.replicate_succ, wordCountAux, hc, ih]

theorem wordCountAux_replicate_false (ws : Nat → Bool) (c : Nat) (n : Nat)
    (hc : ws c = false) (hn : 0 < n) :
    wordCountAux ws (List.replicate n c) false = 1 := by
  cases n with
  | zero => omega
  | succ n =>
    simp [List.replicate_succ, wordCountAux, hc, wordCountAux_replicate_true ws c n hc]

theorem wordEndState_replicate (ws : Nat → Bool) (c : Nat) (n : Nat) (b : Bool)
    (hn : 0 < n) : wordEndState ws (List.replicate n c) b = !ws c := by
  induction n generalizing b with
  | zero => omega
  | succ n ih =>
    cases n with
    | zero => simp [List.replicate_succ, wordEndState]
    | succ m =>
      rw [List.replicate_succ]
      show wordEndState ws (List.replicate (m + 1) c) (!ws c) = !ws c
      exact ih _ (by omega)

/-! ### Evaluating the UTF-8 chunk planner on two-chunk buffers -/

theorem utf8BdLoopF_stop (data : List Nat) (fuel p : Nat) (hf : 0 < fuel)
    (hp : p < data.length) (hc : isUtf8Cont (data.getD p 0) = false) :
    utf8BdLoopF data fuel p = p := by
  cases fuel with
  | zero => omega
  | succ fuel =>
    have hc2 : isUtf8Cont data[p] = false := by
      rw [List.getD_eq_getElem?_getD, List.getElem?_eq_getElem hp] at hc
      simpa using hc
    simp [utf8BdLoopF, hp, hc2]

theorem find_utf8_boundary_stop (data : List Nat) (p : Nat) (hp : p < data.length)
    (hc : isUtf8Cont (data.getD p 0) = false) : find_utf8_boundary data p = p := by
  unfold find_utf8_boundary
  rw [if_neg (by omega)]
  exact utf8BdLoopF_stop data _ p (by omega) hp hc

theorem utf8BdAuxF_nil (data : List Nat) (cs fuel pos : Nat)
    (h : ¬(pos < data.length ∧ 0 < cs)) : utf8BdAuxF data cs fuel pos = [] := by
  cases fuel with
  | zero => rfl
  | succ fuel => simp [utf8BdAuxF, h]

theorem utf8BdAuxF_cons (data : List Nat) (cs fuel pos : Nat)
    (h : pos < data.length ∧ 0 < cs) :
    utf8BdAuxF data cs (fuel + 1) pos =
      find_utf8_boundary data pos ::
        utf8BdAuxF data cs fuel (find_utf8_boundary data pos + cs) := by
  simp [utf8BdAuxF, h]

theorem utf8_boundaries_two (data : List Nat) (h1 : CHUNK_SIZE < data.length)
    (h2 : data.length ≤ 2 * CHUNK_SIZE)
    (h3 : isUtf8Cont (data.getD CHUNK_SIZE 0) = false) :
    find_utf8_chunk_boundaries data CHUNK_SIZE = [0, CHUNK_SIZE, data.length] := by
  have hcs : (0 : Nat) < CHUNK_SIZE := by norm_num [CHUNK_SIZE]
  have hb : find_utf8_boundary data CHUNK_SIZE = CHUNK_SIZE :=
    find_utf8_boundary_stop data CHUNK_SIZE h1 h3
  have haux : utf8BdAuxF data CHUNK_SIZE (data.length + 1) CHUNK_SIZE = [CHUNK_SIZE] := by
    rw [utf8BdAuxF_cons data CHUNK_SIZE data.length CHUNK_SIZE ⟨h1, hcs⟩, hb,
      utf8BdAuxF_nil data CHUNK_SIZE data.length (CHUNK_SIZE + CHUNK_SIZE)
        (by omega)]
  unfold find_utf8_chunk_boundaries
  rw [haux]
  rw [if_neg (by
    simp only [List.getLastD_eq_getLast?]
    simp
    omega)]
  rfl

theorem zipWindows_three (a b c : Nat) : zipWindows [a, b, c] = [(a, b), (b, c)] := by
  simp [zipWindows]

theorem sliceBytes_left (data : List Nat) (b : Nat) :
    sliceBytes data 0 b = data.take b := by
  simp [sliceBytes]

theorem sliceBytes_right (data : List Nat) (a : Nat) :
    sliceBytes data a data.length = data.drop a := by
  apply List.take_of_length_le
  simp

/-! ### Indexing into `replicate n a ++ l` -/

theorem take_replicate_append (n : Nat) (a : Nat) (l : List Nat) :
    (List.replicate n a ++ l).take n = List.replicate n a := by
  have h := List.take_left (List.replicate n a) l
  rwa [List.length_replicate] at h

theorem drop_replicate_append (n : Nat) (a : Nat) (l : List Nat) :
    (List.replicate n a ++ l).drop n = l := by
  have h := List.drop_left (List.replicate n a) l
  rwa [List.length_replicate] at h

theorem getD_replicate_append_right (n k : Nat) (a : Nat) (l : List Nat) :
    (List.replicate n a ++ l).getD (n + k) 0 = l.getD k 0 := by
  rw [List.getD_eq_getElem?_getD, List.getD_eq_getElem?_getD,
    List.getElem?_append_right (by simp : (List.replicate n a).length ≤ n + k)]
  simp

theorem getD_replicate_append_lt (n k : Nat) (a : Nat) (l : List Nat) (hk : k < n) :
    (List.replicate n a ++ l).getD k 0 = a := by
  rw [List.getD_eq_getElem?_getD,
    List.getElem?_append_left (by simp [hk] : k < (List.replicate n a).length),
    List.getElem?_replicate, if_pos hk]
  rfl

/-! ### find_iter lemmas -/

theorem findIterPosF_nil (pat : List Nat) (fuel off : Nat) :
    findIterPosF pat fuel [] off = [] := by
  cases fuel <;> rfl

theorem findIterPosF_cons_pos (pat : List Nat) (d : Nat) (ds : List Nat)
    (fuel off : Nat) (h : pat ≠ [] ∧ pat.isPrefixOf (d :: ds)) :
    findIterPosF pat (fuel + 1) (d :: ds) off =
      off :: findIterPosF pat fuel ((d :: ds).drop pat.length) (off + pat.length) := by
  simp [findIterPosF, h]

theorem findIterPosF_cons_neg (pat : List Nat) (d : Nat) (ds : List Nat)
    (fuel off : Nat) (h : ¬(pat ≠ [] ∧ pat.isPrefixOf (d :: ds))) :
    findIterPosF pat (fuel + 1) (d :: ds) off = findIterPosF pat fuel ds (off + 1) := by
  simp only [findIterPosF, if_neg h]

theorem findIterPosF_succ (pat : List Nat) :
    ∀ (fuel : Nat) (l : List Nat) (off : Nat), l.length ≤ fuel →
      findIterPosF pat (fuel + 1) l off = findIterPosF pat fuel l off := by
  intro fuel
  induction fuel with
  | zero =>
    intro l off h
    have hl : l = [] := List.length_eq_zero.mp (Nat.le_zero.mp h)
    subst hl
    rfl
  | succ fuel ih =>
    intro l off h
    cases l with
    | nil => rfl
    | cons d ds =>
      simp only [List.length_cons] at h
      by_cases hg : pat ≠ [] ∧ pat.isPrefixOf (d :: ds)
      · rw [findIterPosF_cons_pos pat d ds (fuel + 1) off hg,
          findIterPosF_cons_pos pat d ds fuel off hg,
          ih ((d :: ds).drop pat.length) (off + pat.length) ?_]
        have hp : 0 < pat.length := List.length_pos.mpr hg.1
        simp only [List.length_drop, List.length_cons]
        omega
      · rw [findIterPosF_cons_neg pat d ds (fuel + 1) off hg,
          findIterPosF_cons_neg pat d ds fuel off hg,
          ih ds (off + 1) (by omega)]

theorem findIterPosF_ge (pat : List Nat) (fuel : Nat) (l : List Nat) (off : Nat)
    (h : l.length ≤ fuel) : findIterPosF pat fuel l off = findIterPos pat l off := by
  unfold findIterPos
  obtain ⟨k, rfl⟩ : ∃ k, fuel = l.length + k := ⟨fuel - l.length, by omega⟩
  induction k with
  | zero => rfl
  | succ k ih =>
    rw [show l.length + (k + 1) = (l.length + k) + 1 by omega,
      findIterPosF_succ pat (l.length + k) l off (by omega), ih (by omega)]

theorem findIterPos_aa_len :
    ∀ (n off : Nat), (findIterPos [97, 97] (List.replicate n 97) off).length = n / 2 := by
  intro n
  induction n using Nat.strong_induction_on with
  | _ n ih =>
    intro off
    match n with
    | 0 => simp [findIterPos, findIterPosF]
    | 1 =>
      show (findIterPosF [97, 97] 1 [97] off).length = 1 / 2
      rw [findIterPosF_cons_neg _ _ _ _ _ (by simp [List.isPrefixOf]),
        findIterPosF_nil]
      rfl
    | n + 2 =>
      have hrep : List.replicate (n + 2) 97 = 97 :: 97 :: List.replicate n 97 := by
        simp [List.replicate_succ]
      unfold findIterPos
      rw [hrep]
      simp only [List.length_cons, List.length_replicate]
      rw [findIterPosF_cons_pos _ _ _ _ _ ⟨by simp, by simp [List.isPrefixOf]⟩]
      have hdrop : (97 :: 97 :: List.replicate n 97).drop ([97, 97] : List Nat).length
          = List.replicate n 97 := rfl
      rw [hdrop, findIterPosF_ge _ _ _ _ (by simp), List.length_cons,
        ih n (by omega) (off + ([97, 97] : List Nat).length)]
      omega

theorem findIterCount_aa_replicate (n : Nat) :
    findIterCount [97, 97] (List.replicate n 97) = n / 2 :=
  findIterPos_aa_len n 0

theorem findIterPos_one_in_zeros :
    ∀ (n off : Nat), findIterPos [1] (List.replicate n 0) off = [] := by
  intro n
  induction n with
  | zero => intro off; rfl
  | succ n ih =>
    intro off
    unfold findIterPos
    rw [List.replicate_succ]
    simp only [List.length_cons, List.length_replicate]
    rw [findIterPosF_cons_neg _ _ _ _ _ (by simp [List.isPrefixOf]),
      findIterPosF_ge _ _ _ _ (by simp), ih (off + 1)]

theorem findIterPos_aa_two (off : Nat) :
    findIterPos [97, 97] (List.replicate 2 97) off = [off] := by
  unfold findIterPos
  show findIterPosF [97, 97] 2 [97, 97] off = [off]
  rw [show (2 : Nat) = 1 + 1 from rfl,
    findIterPosF_cons_pos _ _ _ _ _ ⟨by simp, by simp [List.isPrefixOf]⟩]
  rfl

/-! ### Evaluating the word counters on the boundary-whitespace buffer -/

theorem count_words_of_decode (chunk text : List Nat) (h : utf8Decode chunk = some text) :
    count_words_in_chunk chunk = wordCountAux isUnicodeWhitespace text false := by
  unfold count_words_in_chunk
  rw [h]

theorem chars_of_decode (chunk text : List Nat) (h : utf8Decode chunk = some text) :
    chars_of_chunk chunk = text.length := by
  unfold chars_of_chunk
  rw [h]

theorem chars_of_decode_none (chunk : List Nat) (h : utf8Decode chunk = none) :
    chars_of_chunk chunk = chunk.length := by
  unfold chars_of_chunk
  rw [h]

theorem exWordsData_length : exWordsData.length = CHUNK_SIZE + 4 := by
  unfold exWordsData
  rw [List.length_append, List.length_replicate]
  rfl

theorem exWordsData_getD_cs : exWordsData.getD CHUNK_SIZE 0 = 226 := by
  unfold exWordsData
  have h := getD_replicate_append_right CHUNK_SIZE 0 97 [226, 128, 131, 98]
  rw [Nat.add_zero] at h
  rw [h]
  rfl

theorem exWordsData_decode :
    utf8Decode exWordsData = some (List.replicate CHUNK_SIZE 97 ++ [8195, 98]) := by
  unfold exWordsData
  rw [utf8Decode_ascii_append _ _
    (fun b hb => by rw [List.eq_of_mem_replicate hb]; norm_num)]
  have hd : utf8Decode [226, 128, 131, 98] = some [8195, 98] := by decide
  rw [hd]
  rfl

theorem words_seq_exWordsData : words_seq exWordsData = 2 := by
  show count_words_in_chunk exWordsData = 2
  rw [count_words_of_decode _ _ exWordsData_decode]
  rw [wordCountAux_append, wordCountAux_replicate_false _ _ _ (by decide)
    (by norm_num [CHUNK_SIZE]), wordEndState_replicate _ _ _ _ (by norm_num [CHUNK_SIZE])]
  norm_num [show wordCountAux isUnicodeWhitespace [8195, 98]
    (!isUnicodeWhitespace 97) = 1 from by decide]

theorem count_words_replicate_a (n : Nat) (hn : 0 < n) :
    count_words_in_chunk (List.replicate n 97) = 1 := by
  rw [count_words_of_decode _ _ (utf8Decode_replicate_a n)]
  exact wordCountAux_replicate_false _ _ _ (by decide) hn

theorem exWordsData_boundaries :
    find_utf8_chunk_boundaries exWordsData CHUNK_SIZE = [0, CHUNK_SIZE, CHUNK_SIZE + 4] := by
  have hb := utf8_boundaries_two exWordsData
    (by rw [exWordsData_length]; omega)
    (by rw [exWordsData_length]; norm_num [CHUNK_SIZE])
    (by rw [exWordsData_getD_cs]; decide)
  rwa [exWordsData_length] at hb

/-- `words_par` on any buffer whose planner yields exactly two chunks. -/
theorem words_par_eval (data c1 c2 : List Nat)
    (hb : find_utf8_chunk_boundaries data CHUNK_SIZE = [0, CHUNK_SIZE, data.length])
    (h1 : sliceBytes data 0 CHUNK_SIZE = c1)
    (h2 : sliceBytes data CHUNK_SIZE data.length = c2) :
    words_par data = count_words_in_chunk c1 + count_words_in_chunk c2 -
      (if 0 < CHUNK_SIZE ∧ CHUNK_SIZE < data.length ∧
          isAsciiWhitespace (data.getD (CHUNK_SIZE - 1) 0) = false ∧
          isAsciiWhitespace (data.getD CHUNK_SIZE 0) = false then 1 else 0) := by
  rw [words_par, hb, zipWindows_three]
  simp only [List.map_cons, List.map_nil]
  rw [h1, h2]
  have hz : (if 0 < data.length ∧ data.length < data.length ∧
      isAsciiWhitespace (data.getD (data.length - 1) 0) = false ∧
      isAsciiWhitespace (data.getD data.length 0) = false then 1 else 0) = 0 :=
    if_neg (fun hc => absurd hc.2.1 (Nat.lt_irrefl _))
  rw [hz]
  simp only [List.sum_cons, List.sum_nil, Nat.add_zero]

theorem words_par_exWordsData : words_par exWordsData = 1 := by
  have hb : find_utf8_chunk_boundaries exWordsData CHUNK_SIZE
      = [0, CHUNK_SIZE, exWordsData.length] := by
    rw [exWordsData_length]
    exact exWordsData_boundaries
  have hslice1 : sliceBytes exWordsData 0 CHUNK_SIZE = List.replicate CHUNK_SIZE 97 := by
    rw [sliceBytes_left, exWordsData, take_replicate_append]
  have hslice2 : sliceBytes exWordsData CHUNK_SIZE exWordsData.length
      = [226, 128, 131, 98] := by
    rw [sliceBytes_right, exWordsData, drop_replicate_append]
  have hgd1 : exWordsData.getD (CHUNK_SIZE - 1) 0 = 97 := by
    rw [exWordsData]
    exact getD_replicate_append_lt _ _ _ _ (by norm_num [CHUNK_SIZE])
  rw [words_par_eval exWordsData _ _ hb hslice1 hslice2,
    count_words_replicate_a _ (by norm_num [CHUNK_SIZE]),
    show count_words_in_chunk [226, 128, 131, 98] = 1 from by decide,
    if_pos ⟨by norm_num [CHUNK_SIZE], by rw [exWordsData_length]; omega,
      by rw [hgd1]; decide, by rw [exWordsData_getD_cs]; decide⟩]

/-! ### Evaluating the unique-word counters on the split-word buffer -/

theorem unique_seq_of_decode (data text : List Nat) (h : utf8Decode data = some text) :
    unique_seq data = (tokensOf text).dedup.length := by
  unfold unique_seq
  rw [h]

theorem count_unique_of_decode_ge (data text : List Nat) (h : utf8Decode data = some text)
    (hlen : PARALLEL_THRESHOLD ≤ data.length) :
    count_unique_words data = unique_par_core data := by
  unfold count_unique_words
  rw [h]
  simp only []
  rw [if_neg (by omega)]

theorem unique_par_of_decode (data text : List Nat) (h : utf8Decode data = some text) :
    unique_par data = unique_par_core data := by
  unfold unique_par
  rw [h]

theorem splitOnWS_no_ws (l : List Nat) (h : ∀ c ∈ l, isUnicodeWhitespace c = false) :
    splitOnWS l = [l] := by
  induction l with
  | nil => rfl
  | cons c rest ih =>
    have hc : isUnicodeWhitespace c = false := h c (by simp)
    have hr := ih (fun x hx => h x (by simp [hx]))
    simp [splitOnWS, hc, hr]

theorem tokensOf_no_ws (l : List Nat) (h : ∀ c ∈ l, isUnicodeWhitespace c = false)
    (hl : l ≠ []) : tokensOf l = [l] := by
  unfold tokensOf
  rw [splitOnWS_no_ws l h, List.filter_cons]
  have : l.isEmpty = false := by
    cases l with
    | nil => exact absurd rfl hl
    | cons a as => rfl
  simp [this]

theorem exUniqueData_length : exUniqueData.length = CHUNK_SIZE + 1 := by
  unfold exUniqueData
  rw [List.length_append, List.length_replicate]
  rfl

theorem exUniqueData_ascii : ∀ b ∈ exUniqueData, b < 128 := by
  intro b hb
  unfold exUniqueData at hb
  rcases List.mem_append.mp hb with hb | hb
  · rw [List.eq_of_mem_replicate hb]
    norm_num
  · have : b = 98 := by simpa using hb
    omega

theorem exUniqueData_no_ws : ∀ c ∈ exUniqueData, isUnicodeWhitespace c = false := by
  intro c hc
  unfold exUniqueData at hc
  rcases List.mem_append.mp hc with hc | hc
  · rw [List.eq_of_mem_replicate hc]
    decide
  · have : c = 98 := by simpa using hc
    subst this
    decide

theorem unique_seq_exUniqueData : unique_seq exUniqueData = 1 := by
  rw [unique_seq_of_decode _ _ (utf8Decode_ascii _ exUniqueData_ascii),
    tokensOf_no_ws _ exUniqueData_no_ws (by
      intro h
      have := congrArg List.length h
      rw [exUniqueData_length] at this
      simp at this)]
  simp

theorem unique_par_core_eval (data c1 c2 : List Nat)
    (hb : find_utf8_chunk_boundaries data CHUNK_SIZE = [0, CHUNK_SIZE, data.length])
    (h1 : sliceBytes data 0 CHUNK_SIZE = c1)
    (h2 : sliceBytes data CHUNK_SIZE data.length = c2) :
    unique_par_core data =
      (tokensOf ((utf8Decode c1).getD []) ++ tokensOf ((utf8Decode c2).getD [])).dedup.length := by
  rw [unique_par_core, hb, zipWindows_three]
  simp only [List.flatMap_cons, List.flatMap_nil]
  rw [h1, h2, List.append_nil]

theorem replicate_a_ne_b : List.replicate CHUNK_SIZE 97 ≠ [98] := by
  intro h
  have h2 := congrArg List.length h
  rw [List.length_replicate, show ([98] : List Nat).length = 1 from rfl] at h2
  norm_num [CHUNK_SIZE] at h2

theorem replicate_a_ne_nil : List.replicate CHUNK_SIZE 97 ≠ [] := by
  intro h
  have h2 := congrArg List.length h
  rw [List.length_replicate, List.length_nil] at h2
  norm_num [CHUNK_SIZE] at h2

theorem count_unique_exUniqueData : count_unique_words exUniqueData = 2 := by
  have hb : find_utf8_chunk_boundaries exUniqueData CHUNK_SIZE
      = [0, CHUNK_SIZE, exUniqueData.length] := by
    refine utf8_boundaries_two exUniqueData ?_ ?_ ?_
    · rw [exUniqueData_length]; omega
    · rw [exUniqueData_length]; norm_num [CHUNK_SIZE]
    · have h := getD_replicate_append_right CHUNK_SIZE 0 97 [98]
      rw [Nat.add_zero] at h
      unfold exUniqueData
      rw [h]
      decide
  have hslice1 : sliceBytes exUniqueData 0 CHUNK_SIZE = List.replicate CHUNK_SIZE 97 := by
    rw [sliceBytes_left, exUniqueData, take_replicate_append]
  have hslice2 : sliceBytes exUniqueData CHUNK_SIZE exUniqueData.length = [98] := by
    rw [sliceBytes_right, exUniqueData, drop_replicate_append]
  rewrite [count_unique_of_decode_ge exUniqueData _ (utf8Decode_ascii _ exUniqueData_ascii)
      (by rw [exUniqueData_length]; norm_num [PARALLEL_THRESHOLD, CHUNK_SIZE]),
    unique_par_core_eval exUniqueData _ _ hb hslice1 hslice2,
    utf8Decode_replicate_a,
    show (utf8Decode [98]).getD [] = [98] from by decide,
    Option.getD_some,
    tokensOf_no_ws _ (fun c hc => by rw [List.eq_of_mem_replicate hc]; decide)
      replicate_a_ne_nil,
    show tokensOf [98] = [[98]] from by decide,
    show ([List.replicate CHUNK_SIZE 97] ++ [[98]] : List (List Nat))
      = [List.replicate CHUNK_SIZE 97, [98]] from rfl,
    List.dedup_cons_of_not_mem (by
      intro hm
      exact replicate_a_ne_b (by simpa using hm))]
  rfl

/-! ### Evaluating the char counters on the invalid-tail buffer -/

theorem getD_append_len (xs l : List Nat) (k : Nat) :
    (xs ++ l).getD (xs.length + k) 0 = l.getD k 0 := by
  rw [List.getD_eq_getElem?_getD, List.getD_eq_getElem?_getD,
    List.getElem?_append_right (by omega : xs.length ≤ xs.length + k)]
  simp

theorem flatten_replicate_pair_length (n : Nat) :
    ((List.replicate n ([195, 169] : List Nat)).flatten).length = 2 * n := by
  induction n with
  | zero => rfl
  | succ n ih =>
    rw [List.replicate_succ, List.flatten_cons, List.length_append, ih]
    simp
    omega

theorem flatten_rep_len_cs :
    ((List.replicate (CHUNK_SIZE / 2) ([195, 169] : List Nat)).flatten).length
      = CHUNK_SIZE := by
  rw [flatten_replicate_pair_length]
  norm_num [CHUNK_SIZE]

theorem exCharsData_length : exCharsData.length = CHUNK_SIZE + 1 := by
  unfold exCharsData
  rw [List.length_append, flatten_rep_len_cs]
  rfl

theorem exCharsData_decode_none : utf8Decode exCharsData = none := by
  unfold exCharsData
  rw [utf8Decode_eacute_append, show utf8Decode [255] = none from by decide]
  rfl

theorem chars_seq_exCharsData : chars_seq exCharsData = CHUNK_SIZE + 1 := by
  show chars_of_chunk exCharsData = _
  rw [chars_of_decode_none _ exCharsData_decode_none, exCharsData_length]

theorem exCharsData_boundaries :
    find_utf8_chunk_boundaries exCharsData CHUNK_SIZE
      = [0, CHUNK_SIZE, exCharsData.length] := by
  refine utf8_boundaries_two _ ?_ ?_ ?_
  · rw [exCharsData_length]
    omega
  · rw [exCharsData_length]
    norm_num [CHUNK_SIZE]
  · have h := getD_append_len ((List.replicate (CHUNK_SIZE / 2) [195, 169]).flatten) [255] 0
    rw [Nat.add_zero, flatten_rep_len_cs] at h
    unfold exCharsData
    rw [h]
    decide

theorem chars_par_eval (data c1 c2 : List Nat)
    (hb : find_utf8_chunk_boundaries data CHUNK_SIZE = [0, CHUNK_SIZE, data.length])
    (h1 : sliceBytes data 0 CHUNK_SIZE = c1)
    (h2 : sliceBytes data CHUNK_SIZE data.length = c2) :
    chars_par data = chars_of_chunk c1 + chars_of_chunk c2 := by
  rw [chars_par, hb, zipWindows_three]
  simp only [List.map_cons, List.map_nil]
  rw [h1, h2]
  simp only [List.sum_cons, List.sum_nil, Nat.add_zero]

theorem count_chars_ge (data : List Nat) (hne : data ≠ [])
    (hlen : PARALLEL_THRESHOLD ≤ data.length) : count_chars data = chars_par data := by
  unfold count_chars
  rw [if_neg hne, if_neg (by omega)]

theorem count_chars_exCharsData : count_chars exCharsData = CHUNK_SIZE / 2 + 1 := by
  have hslice1 : sliceBytes exCharsData 0 CHUNK_SIZE
      = (List.replicate (CHUNK_SIZE / 2) [195, 169]).flatten := by
    rw [sliceBytes_left]
    unfold exCharsData
    have h := List.take_left ((List.replicate (CHUNK_SIZE / 2) ([195, 169] : List Nat)).flatten) [255]
    rwa [flatten_rep_len_cs] at h
  have hslice2 : sliceBytes exCharsData CHUNK_SIZE exCharsData.length = [255] := by
    rw [sliceBytes_right]
    unfold exCharsData
    have h := List.drop_left ((List.replicate (CHUNK_SIZE / 2) ([195, 169] : List Nat)).flatten) [255]
    rwa [flatten_rep_len_cs] at h
  have hd : utf8Decode ((List.replicate (CHUNK_SIZE / 2) ([195, 169] : List Nat)).flatten)
      = some (List.replicate (CHUNK_SIZE / 2) 233) := by
    have h := utf8Decode_eacute_append (CHUNK_SIZE / 2) []
    rw [List.append_nil] at h
    rw [h, show utf8Decode ([] : List Nat) = some [] from rfl, Option.map_some',
      List.append_nil]
  have hc1 : chars_of_chunk ((List.replicate (CHUNK_SIZE / 2) ([195, 169] : List Nat)).flatten)
      = CHUNK_SIZE / 2 := by
    rw [chars_of_decode _ _ hd, List.length_replicate]
  rewrite [count_chars_ge exCharsData
      (by
        intro h
        have h2 := congrArg List.length h
        rw [exCharsData_length, List.length_nil] at h2
        norm_num [CHUNK_SIZE] at h2)
      (by rw [exCharsData_length]; norm_num [PARALLEL_THRESHOLD, CHUNK_SIZE]),
    chars_par_eval exCharsData _ _ exCharsData_boundaries hslice1 hslice2,
    hc1, show chars_of_chunk [255] = 1 from by decide]
  rfl

/-! ### Evaluating the pattern counters on the all-a buffer -/

theorem exPatData_length : exPatData.length = CHUNK_SIZE + 2 := by
  unfold exPatData
  rw [List.length_replicate]

theorem numChunks_exPatData : numChunks exPatData = 2 := by
  rw [numChunks, exPatData_length]
  norm_num [CHUNK_SIZE]

theorem pattern_seq_exPatData : pattern_seq exPatData [97, 97] = CHUNK_SIZE / 2 + 1 := by
  unfold pattern_seq exPatData
  rw [findIterCount_aa_replicate]
  omega

theorem patChunkSum_eval (data pat c1 c2 : List Nat) (hn : numChunks data = 2)
    (h1 : sliceBytes data 0 (min CHUNK_SIZE data.length) = c1)
    (h2 : sliceBytes data CHUNK_SIZE (min (2 * CHUNK_SIZE) data.length) = c2) :
    patChunkSum data pat = findIterCount pat c1 + findIterCount pat c2 := by
  rw [patChunkSum, hn, show List.range 2 = [0, 1] from rfl]
  simp only [List.map_cons, List.map_nil]
  rw [show (0 : Nat) * CHUNK_SIZE = 0 from by ring,
    show ((0 : Nat) + 1) * CHUNK_SIZE = CHUNK_SIZE from by ring,
    show ((1 : Nat) + 1) * CHUNK_SIZE = 2 * CHUNK_SIZE from by ring]
  rw [h1, h2]
  simp only [List.sum_cons, List.sum_nil, Nat.add_zero]

theorem patBoundarySum_eval (data pat : List Nat) (hn : numChunks data = 2) :
    patBoundarySum data pat = patBoundaryMatches data pat CHUNK_SIZE := by
  rw [patBoundarySum, hn, show List.range' 1 (2 - 1) = [1] from rfl]
  simp only [List.map_cons, List.map_nil, List.sum_cons, List.sum_nil, Nat.add_zero]
  rw [show (1 : Nat) * CHUNK_SIZE = CHUNK_SIZE from by ring]

theorem patBoundaryMatches_eval (data pat region : List Nat) (b ss se : Nat)
    (hss : b - (pat.length - 1) = ss)
    (hse : min (b + (pat.length - 1)) data.length = se)
    (hlt : ¬ (ss ≥ se))
    (hr : sliceBytes data ss se = region) :
    patBoundaryMatches data pat b =
      ((findIterPos pat region 0).filter
        (fun q => decide (ss + q < b) && decide (b < ss + q + pat.length))).length := by
  rw [patBoundaryMatches]
  rw [hss, hse, if_neg hlt, hr]

theorem count_pattern_ge (data pat : List Nat) (hne : ¬(data = [] ∨ pat = []))
    (hlen : PARALLEL_THRESHOLD ≤ data.length) :
    count_pattern data pat = pattern_par data pat := by
  unfold count_pattern
  rw [if_neg hne, if_neg (by omega)]

theorem exPatData_ne_nil : exPatData ≠ [] := by
  intro h
  have h2 := congrArg List.length h
  rw [exPatData_length, List.length_nil] at h2
  norm_num [CHUNK_SIZE] at h2

theorem count_pattern_exPatData : count_pattern exPatData [97, 97] = CHUNK_SIZE / 2 + 2 := by
  have hm1 : min CHUNK_SIZE exPatData.length = CHUNK_SIZE := by
    rw [exPatData_length]
    exact min_eq_left (by omega)
  have hslice1 : sliceBytes exPatData 0 (min CHUNK_SIZE exPatData.length)
      = List.replicate CHUNK_SIZE 97 := by
    rw [hm1, sliceBytes_left, exPatData, List.take_replicate,
      show min CHUNK_SIZE (CHUNK_SIZE + 2) = CHUNK_SIZE from min_eq_left (by omega)]
  have hm2 : min (2 * CHUNK_SIZE) exPatData.length = CHUNK_SIZE + 2 := by
    rw [exPatData_length]
    exact min_eq_right (by norm_num [CHUNK_SIZE])
  have hslice2 : sliceBytes exPatData CHUNK_SIZE (min (2 * CHUNK_SIZE) exPatData.length)
      = List.replicate 2 97 := by
    rw [hm2]
    unfold sliceBytes exPatData
    rw [List.drop_replicate, List.take_replicate]
    congr 1
  have hse : min (CHUNK_SIZE + (([97, 97] : List Nat).length - 1)) exPatData.length
      = CHUNK_SIZE + 1 := by
    rw [exPatData_length]
    exact min_eq_left (by norm_num)
  have hr : sliceBytes exPatData (CHUNK_SIZE - 1) (CHUNK_SIZE + 1) = List.replicate 2 97 := by
    unfold sliceBytes exPatData
    rw [List.drop_replicate, List.take_replicate]
    congr 1
  rewrite [count_pattern_ge exPatData [97, 97] (by
      intro h
      rcases h with h | h
      · exact exPatData_ne_nil h
      · simp at h)
      (by rw [exPatData_length]; norm_num [PARALLEL_THRESHOLD, CHUNK_SIZE]),
    pattern_par,
    patChunkSum_eval exPatData [97, 97] _ _ numChunks_exPatData hslice1 hslice2,
    patBoundarySum_eval exPatData [97, 97] numChunks_exPatData,
    patBoundaryMatches_eval exPatData [97, 97] (List.replicate 2 97) CHUNK_SIZE
      (CHUNK_SIZE - 1) (CHUNK_SIZE + 1) (by norm_num) hse
      (by norm_num [CHUNK_SIZE]) hr,
    findIterCount_aa_replicate,
    show findIterCount [97, 97] (List.replicate 2 97) = 1 from by
      rw [findIterCount_aa_replicate],
    findIterPos_aa_two]
  rw [show (List.filter
      (fun q => decide (CHUNK_SIZE - 1 + q < CHUNK_SIZE) &&
        decide (CHUNK_SIZE < CHUNK_SIZE - 1 + q + ([97, 97] : List Nat).length)) [0]).length
      = 1 from by decide]

/-! ### Evaluating count_all_words on the boundary-cut word buffers -/

theorem count_all_words_ge (data : List Nat) (hne : data ≠ [])
    (hlen : PARALLEL_THRESHOLD ≤ data.length) :
    count_all_words data = words_par data := by
  unfold count_all_words
  rw [if_neg hne, if_neg (by omega)]

theorem take_replicate_append_add (n k a : Nat) (l : List Nat) :
    (List.replicate n a ++ l).take (n + k) = List.replicate n a ++ l.take k := by
  have h : (List.replicate n a ++ l).take ((List.replicate n a).length + k)
      = List.replicate n a ++ l.take k := List.take_append k
  rwa [List.length_replicate] at h

theorem drop_replicate_append_add (n k a : Nat) (l : List Nat) :
    (List.replicate n a ++ l).drop (n + k) = l.drop k := by
  have h : (List.replicate n a ++ l).drop ((List.replicate n a).length + k)
      = l.drop k := List.drop_append k
  rwa [List.length_replicate] at h

theorem exData1_length : exData1.length = CHUNK_SIZE + 1 := by
  unfold exData1
  rw [List.length_append, List.length_replicate]
  norm_num [CHUNK_SIZE]

theorem exData2_length : exData2.length = CHUNK_SIZE + 1 := by
  unfold exData2
  rw [List.length_append, List.length_replicate]
  norm_num [CHUNK_SIZE]

theorem exData1_getD_cs : exData1.getD CHUNK_SIZE 0 = 99 := by
  unfold exData1
  have h := getD_replicate_append_right (CHUNK_SIZE - 1) 1 97 ([98, 99] : List Nat)
  rewrite [show (CHUNK_SIZE - 1) + 1 = CHUNK_SIZE from by norm_num [CHUNK_SIZE]] at h
  rewrite [h]
  rfl

theorem exData1_getD_csm1 : exData1.getD (CHUNK_SIZE - 1) 0 = 98 := by
  unfold exData1
  have h := getD_replicate_append_right (CHUNK_SIZE - 1) 0 97 ([98, 99] : List Nat)
  rewrite [Nat.add_zero] at h
  rewrite [h]
  rfl

theorem exData2_getD_cs : exData2.getD CHUNK_SIZE 0 = 99 := by
  unfold exData2
  have h := getD_replicate_append_right (CHUNK_SIZE - 1) 1 97 ([32, 99] : List Nat)
  rewrite [show (CHUNK_SIZE - 1) + 1 = CHUNK_SIZE from by norm_num [CHUNK_SIZE]] at h
  rewrite [h]
  rfl

theorem exData2_getD_csm1 : exData2.getD (CHUNK_SIZE - 1) 0 = 32 := by
  unfold exData2
  have h := getD_replicate_append_right (CHUNK_SIZE - 1) 0 97 ([32, 99] : List Nat)
  rewrite [Nat.add_zero] at h
  rewrite [h]
  rfl

theorem exData1_slice1 :
    sliceBytes exData1 0 CHUNK_SIZE = List.replicate (CHUNK_SIZE - 1) 97 ++ [98] := by
  rewrite [sliceBytes_left, exData1]
  have h := take_replicate_append_add (CHUNK_SIZE - 1) 1 97 ([98, 99] : List Nat)
  rewrite [show (CHUNK_SIZE - 1) + 1 = CHUNK_SIZE from by norm_num [CHUNK_SIZE],
    show (([98, 99] : List Nat).take 1) = [98] from rfl] at h
  exact h

theorem exData1_slice2 : sliceBytes exData1 CHUNK_SIZE exData1.length = [99] := by
  rewrite [sliceBytes_right, exData1]
  have h := drop_replicate_append_add (CHUNK_SIZE - 1) 1 97 ([98, 99] : List Nat)
  rewrite [show (CHUNK_SIZE - 1) + 1 = CHUNK_SIZE from by norm_num [CHUNK_SIZE],
    show (([98, 99] : List Nat).drop 1) = [99] from rfl] at h
  exact h

theorem exData2_slice1 :
    sliceBytes exData2 0 CHUNK_SIZE = List.replicate (CHUNK_SIZE - 1) 97 ++ [32] := by
  rewrite [sliceBytes_left, exData2]
  have h := take_replicate_append_add (CHUNK_SIZE - 1) 1 97 ([32, 99] : List Nat)
  rewrite [show (CHUNK_SIZE - 1) + 1 = CHUNK_SIZE from by norm_num [CHUNK_SIZE],
    show (([32, 99] : List Nat).take 1) = [32] from rfl] at h
  exact h

theorem exData2_slice2 : sliceBytes exData2 CHUNK_SIZE exData2.length = [99] := by
  rewrite [sliceBytes_right, exData2]
  have h := drop_replicate_append_add (CHUNK_SIZE - 1) 1 97 ([32, 99] : List Nat)
  rewrite [show (CHUNK_SIZE - 1) + 1 = CHUNK_SIZE from by norm_num [CHUNK_SIZE],
    show (([32, 99] : List Nat).drop 1) = [99] from rfl] at h
  exact h

theorem count_words_rep97_single (n b : Nat) (hn : 0 < n) (hb : b < 128) :
    count_words_in_chunk (List.replicate n 97 ++ [b]) = 1 := by
  have hdec : utf8Decode (List.replicate n 97 ++ [b])
      = some (List.replicate n 97 ++ [b]) :=
    utf8Decode_ascii _ (by
      intro x hx
      rcases List.mem_append.mp hx with hx | hx
      · rw [List.eq_of_mem_replicate hx]; norm_num
      · simp at hx; omega)
  rw [count_words_of_decode _ _ hdec, wordCountAux_append,
    wordCountAux_replicate_false _ _ _ (by decide) hn,
    wordEndState_replicate _ _ _ _ hn,
    show isUnicodeWhitespace 97 = false from by decide]
  by_cases hw : isUnicodeWhitespace b = true
  · simp [wordCountAux, hw]
  · simp only [Bool.not_eq_true] at hw
    simp [wordCountAux, hw]

theorem exData1_boundaries :
    find_utf8_chunk_boundaries exData1 CHUNK_SIZE = [0, CHUNK_SIZE, exData1.length] := by
  refine utf8_boundaries_two exData1 ?_ ?_ ?_
  · rw [exData1_length]; omega
  · rw [exData1_length]; norm_num [CHUNK_SIZE]
  · rw [exData1_getD_cs]; decide

theorem exData2_boundaries :
    find_utf8_chunk_boundaries exData2 CHUNK_SIZE = [0, CHUNK_SIZE, exData2.length] := by
  refine utf8_boundaries_two exData2 ?_ ?_ ?_
  · rw [exData2_length]; omega
  · rw [exData2_length]; norm_num [CHUNK_SIZE]
  · rw [exData2_getD_cs]; decide

theorem count_all_words_exData1 : count_all_words exData1 = 1 := by
  rewrite [count_all_words_ge exData1
      (by intro h; have h2 := congrArg List.length h;
          rw [exData1_length, List.length_nil] at h2; omega)
      (by rw [exData1_length]; norm_num [PARALLEL_THRESHOLD, CHUNK_SIZE]),
    words_par_eval exData1 _ _ exData1_boundaries exData1_slice1 exData1_slice2,
    count_words_rep97_single (CHUNK_SIZE - 1) 98 (by norm_num [CHUNK_SIZE]) (by norm_num),
    show count_words_in_chunk [99] = 1 from by decide,
    if_pos ⟨by norm_num [CHUNK_SIZE], by rw [exData1_length]; omega,
      by rw [exData1_getD_csm1]; decide, by rw [exData1_getD_cs]; decide⟩]
  rfl

theorem count_all_words_exData2 : count_all_words exData2 = 2 := by
  rewrite [count_all_words_ge exData2
      (by intro h; have h2 := congrArg List.length h;
          rw [exData2_length, List.length_nil] at h2; omega)
      (by rw [exData2_length]; norm_num [PARALLEL_THRESHOLD, CHUNK_SIZE]),
    words_par_eval exData2 _ _ exData2_boundaries exData2_slice1 exData2_slice2,
    count_words_rep97_single (CHUNK_SIZE - 1) 32 (by norm_num [CHUNK_SIZE]) (by norm_num),
    show count_words_in_chunk [99] = 1 from by decide,
    if_neg (fun hc => by
      have h3 := hc.2.2.1
      rw [exData2_getD_csm1] at h3
      exact absurd h3 (by decide))]
  rfl

/-! ### The boundary rescan counts exactly the straddling occurrences -/

theorem findIterPosF_zero (pat l : List Nat) (off : Nat) : findIterPosF pat 0 l off = [] := by
  cases l <;> rfl

theorem findIterPosF_short (pat : List Nat) :
    ∀ (fuel : Nat) (l : List Nat) (off : Nat), l.length < pat.length →
      findIterPosF pat fuel l off = [] := by
  intro fuel
  induction fuel with
  | zero => intro l off _; exact findIterPosF_zero pat l off
  | succ fuel ih =>
    intro l off h
    cases l with
    | nil => rfl
    | cons d ds =>
      rw [findIterPosF_cons_neg pat d ds fuel off (by
        intro hc
        have hle := (List.isPrefixOf_iff_prefix.mp hc.2).length_le
        simp only [List.length_cons] at h hle
        omega)]
      exact ih ds (off + 1) (by simp only [List.length_cons] at h; omega)

theorem findIterPosF_at_most_one (pat : List Nat) :
    ∀ (fuel : Nat) (l : List Nat) (off : Nat), l.length < 2 * pat.length →
      (findIterPosF pat fuel l off).length ≤ 1 := by
  intro fuel
  induction fuel with
  | zero => intro l off _; rw [findIterPosF_zero]; simp
  | succ fuel ih =>
    intro l off h
    cases l with
    | nil => rw [findIterPosF_nil]; simp
    | cons d ds =>
      by_cases hc : pat ≠ [] ∧ pat.isPrefixOf (d :: ds)
      · have hL : 0 < pat.length := List.length_pos.mpr hc.1
        have hshort : ((d :: ds).drop pat.length).length < pat.length := by
          simp only [List.length_drop, List.length_cons]
          simp only [List.length_cons] at h
          omega
        rw [findIterPosF_cons_pos pat d ds fuel off hc,
          findIterPosF_short pat fuel _ _ hshort]
        simp
      · rw [findIterPosF_cons_neg pat d ds fuel off hc]
        exact ih ds (off + 1) (by simp only [List.length_cons] at h; omega)

theorem findIterPosF_sound (pat : List Nat) :
    ∀ (fuel : Nat) (l : List Nat) (off q : Nat), l.length ≤ fuel →
      q ∈ findIterPosF pat fuel l off →
      off ≤ q ∧ pat.isPrefixOf (l.drop (q - off)) = true := by
  intro fuel
  induction fuel with
  | zero =>
    intro l off q hf hm
    rw [findIterPosF_zero] at hm
    exact absurd hm (List.not_mem_nil q)
  | succ fuel ih =>
    intro l off q hf hm
    cases l with
    | nil =>
      rw [findIterPosF_nil] at hm
      exact absurd hm (List.not_mem_nil q)
    | cons d ds =>
      by_cases hc : pat ≠ [] ∧ pat.isPrefixOf (d :: ds)
      · rw [findIterPosF_cons_pos pat d ds fuel off hc] at hm
        rcases List.mem_cons.mp hm with rfl | hm2
        · refine ⟨le_refl q, ?_⟩
          rw [Nat.sub_self, List.drop_zero]
          exact hc.2
        · have hL : 0 < pat.length := List.length_pos.mpr hc.1
          have hlen : ((d :: ds).drop pat.length).length ≤ fuel := by
            simp only [List.length_drop, List.length_cons]
            simp only [List.length_cons] at hf
            omega
          obtain ⟨hq1, hq2⟩ := ih _ (off + pat.length) q hlen hm2
          rw [List.drop_drop] at hq2
          refine ⟨by omega, ?_⟩
          rwa [show pat.length + (q - (off + pat.length)) = q - off from by omega] at hq2
      · rw [findIterPosF_cons_neg pat d ds fuel off hc] at hm
        obtain ⟨hq1, hq2⟩ := ih ds (off + 1) q
          (by simp only [List.length_cons] at hf; omega) hm
        refine ⟨by omega, ?_⟩
        rw [show q - off = (q - (off + 1)) + 1 from by omega, List.drop_succ_cons]
        exact hq2

theorem findIterPosF_complete (pat : List Nat) (hp : pat ≠ []) :
    ∀ (fuel : Nat) (l : List Nat) (off : Nat), l.length ≤ fuel →
      (∃ q, pat.isPrefixOf (l.drop q) = true) →
      findIterPosF pat fuel l off ≠ [] := by
  intro fuel
  induction fuel with
  | zero =>
    intro l off hf hex
    obtain ⟨q, hq⟩ := hex
    have hl : l = [] := List.length_eq_zero.mp (by omega)
    subst hl
    rw [List.drop_nil] at hq
    exact absurd (List.prefix_nil.mp (List.isPrefixOf_iff_prefix.mp hq)) hp
  | succ fuel ih =>
    intro l off hf hex
    cases l with
    | nil =>
      obtain ⟨q, hq⟩ := hex
      rw [List.drop_nil] at hq
      exact absurd (List.prefix_nil.mp (List.isPrefixOf_iff_prefix.mp hq)) hp
    | cons d ds =>
      by_cases hc : pat.isPrefixOf (d :: ds)
      · rw [findIterPosF_cons_pos pat d ds fuel off ⟨hp, hc⟩]
        exact List.cons_ne_nil _ _
      · rw [findIterPosF_cons_neg pat d ds fuel off (fun h => hc h.2)]
        apply ih ds (off + 1) (by simp only [List.length_cons] at hf; omega)
        obtain ⟨q, hq⟩ := hex
        cases q with
        | zero =>
          rw [List.drop_zero] at hq
          exact absurd hq hc
        | succ k =>
          rw [List.drop_succ_cons] at hq
          exact ⟨k, hq⟩

theorem prefix_slice_iff (data pat : List Nat) (ss se q : Nat) (hp : 0 < pat.length) :
    pat.isPrefixOf ((sliceBytes data ss se).drop q) = true ↔
      (pat.isPrefixOf (data.drop (ss + q)) = true ∧ ss + q + pat.length ≤ se) := by
  unfold sliceBytes
  rw [List.drop_take, List.drop_drop, List.isPrefixOf_iff_prefix, List.prefix_take_iff,
    List.isPrefixOf_iff_prefix]
  constructor
  · rintro ⟨h1, h2⟩
    exact ⟨h1, by omega⟩
  · rintro ⟨h1, h2⟩
    exact ⟨h1, by omega⟩

theorem patBoundaryMatches_eq_straddle (data pat : List Nat) (b : Nat)
    (hp : pat ≠ []) (hb : 0 < b) (hblen : b < data.length) :
    patBoundaryMatches data pat b = straddleInd data pat b := by
  have hL : 0 < pat.length := List.length_pos.mpr hp
  by_cases hL1 : pat.length = 1
  · rw [patBoundaryMatches,
      if_pos (by omega : b - (pat.length - 1) ≥ min (b + (pat.length - 1)) data.length)]
    have h0 : ¬((List.range b).any
        (fun p => pat.isPrefixOf (data.drop p) && decide (b < p + pat.length)) = true) := by
      intro hany
      obtain ⟨p, hpmem, hcond⟩ := List.any_eq_true.mp hany
      rw [Bool.and_eq_true] at hcond
      obtain ⟨c1, c2⟩ := hcond
      have h1 := List.mem_range.mp hpmem
      have h2 := of_decide_eq_true c2
      omega
    rw [straddleInd, if_neg h0]
  · have hL2 : 2 ≤ pat.length := by omega
    have hneg : ¬(b - (pat.length - 1) ≥ min (b + (pat.length - 1)) data.length) := by
      omega
    rw [patBoundaryMatches, if_neg hneg]
    have hmem : ∀ q ∈ findIterPos pat (sliceBytes data (b - (pat.length - 1))
        (min (b + (pat.length - 1)) data.length)) 0,
        pat.isPrefixOf (data.drop (b - (pat.length - 1) + q)) = true ∧
        b - (pat.length - 1) + q < b ∧ b < b - (pat.length - 1) + q + pat.length := by
      intro q hq
      unfold findIterPos at hq
      have hs := findIterPosF_sound pat _ _ 0 q (le_refl _) hq
      rw [Nat.sub_zero] at hs
      obtain ⟨hpre, hbound⟩ := (prefix_slice_iff data pat (b - (pat.length - 1))
        (min (b + (pat.length - 1)) data.length) q hL).mp hs.2
      exact ⟨hpre, by omega, by omega⟩
    have hfilter : (findIterPos pat (sliceBytes data (b - (pat.length - 1))
          (min (b + (pat.length - 1)) data.length)) 0).filter
        (fun q => decide (b - (pat.length - 1) + q < b) &&
          decide (b < b - (pat.length - 1) + q + pat.length)) =
        findIterPos pat (sliceBytes data (b - (pat.length - 1))
          (min (b + (pat.length - 1)) data.length)) 0 :=
      List.filter_eq_self.mpr (fun q hq => by
        obtain ⟨h1, h2, h3⟩ := hmem q hq
        simp [h2, h3])
    rw [hfilter]
    have hone : (findIterPos pat (sliceBytes data (b - (pat.length - 1))
        (min (b + (pat.length - 1)) data.length)) 0).length ≤ 1 := by
      unfold findIterPos
      apply findIterPosF_at_most_one
      unfold sliceBytes
      simp only [List.length_take, List.length_drop]
      omega
    by_cases hstr : ∃ p, p < b ∧ b < p + pat.length ∧ pat.isPrefixOf (data.drop p) = true
    · obtain ⟨p, hp1, hp2, hp3⟩ := hstr
      have hrhs : straddleInd data pat b = 1 := by
        rw [straddleInd, if_pos (List.any_eq_true.mpr
          ⟨p, List.mem_range.mpr hp1, by simp [hp3, hp2]⟩)]
      have hnonempty : findIterPos pat (sliceBytes data (b - (pat.length - 1))
          (min (b + (pat.length - 1)) data.length)) 0 ≠ [] := by
        unfold findIterPos
        apply findIterPosF_complete pat hp _ _ 0 (le_refl _)
        refine ⟨p - (b - (pat.length - 1)), ?_⟩
        apply (prefix_slice_iff data pat _ _ _ hL).mpr
        have hple : p + pat.length ≤ data.length := by
          have hd := (List.isPrefixOf_iff_prefix.mp hp3).length_le
          rw [List.length_drop] at hd
          omega
        constructor
        · rwa [show b - (pat.length - 1) + (p - (b - (pat.length - 1))) = p from by omega]
        · omega
      have hpos : 0 < (findIterPos pat (sliceBytes data (b - (pat.length - 1))
          (min (b + (pat.length - 1)) data.length)) 0).length :=
        List.length_pos.mpr hnonempty
      rw [hrhs]
      omega
    · have h0 : ¬((List.range b).any
          (fun p2 => pat.isPrefixOf (data.drop p2) && decide (b < p2 + pat.length)) = true) := by
        intro hany
        obtain ⟨p2, hpmem, hcond⟩ := List.any_eq_true.mp hany
        rw [Bool.and_eq_true] at hcond
        obtain ⟨c1, c2⟩ := hcond
        exact hstr ⟨p2, List.mem_range.mp hpmem, of_decide_eq_true c2, c1⟩
      rw [straddleInd, if_neg h0]
      rw [List.length_eq_zero]
      by_contra hne
      obtain ⟨q, hq⟩ := List.exists_mem_of_ne_nil _ hne
      obtain ⟨h1, h2, h3⟩ := hmem q hq
      exact hstr ⟨b - (pat.length - 1) + q, h2, h3, h1⟩

theorem count_pattern_straddle_decomp (data pat : List Nat) (hp : pat ≠ [])
    (hlen : PARALLEL_THRESHOLD ≤ data.length) :
    count_pattern data pat = patChunkSum data pat +
      ((List.range' 1 (numChunks data - 1)).map
        (fun i => straddleInd data pat (i * CHUNK_SIZE))).sum := by
  have hne : data ≠ [] := by
    intro h
    rw [h] at hlen
    norm_num [PARALLEL_THRESHOLD] at hlen
  have hmap : (List.range' 1 (numChunks data - 1)).map
      (fun i => patBoundaryMatches data pat (i * CHUNK_SIZE)) =
      (List.range' 1 (numChunks data - 1)).map
      (fun i => straddleInd data pat (i * CHUNK_SIZE)) := by
    apply List.map_congr_left
    intro i hi
    obtain ⟨hi1, hi2⟩ := List.mem_range'_1.mp hi
    have hT : 512 * 1024 ≤ data.length := by
      simpa only [PARALLEL_THRESHOLD] using hlen
    have hb0 : 0 < i * CHUNK_SIZE := by
      simp only [CHUNK_SIZE]
      omega
    have hbound : i * CHUNK_SIZE < data.length := by
      simp only [numChunks, CHUNK_SIZE] at hi2
      simp only [CHUNK_SIZE]
      omega
    exact patBoundaryMatches_eq_straddle data pat (i * CHUNK_SIZE) hp hb0 hbound
  rw [count_pattern_ge data pat (not_or.mpr ⟨hne, hp⟩) hlen, pattern_par, patBoundarySum, hmap]

/-! ### Invariants of the UTF-8 chunk planner -/

theorem utf8BdLoopF_spec (data : List Nat) :
    ∀ (fuel p : Nat), p ≤ data.length →
      p ≤ utf8BdLoopF data fuel p ∧ utf8BdLoopF data fuel p ≤ data.length ∧
      (utf8BdLoopF data fuel p = data.length ∨
        isUtf8Cont (data.getD (utf8BdLoopF data fuel p) 0) = false) := by
  intro fuel
  induction fuel with
  | zero =>
    intro p hp
    exact ⟨hp, le_refl _, Or.inl rfl⟩
  | succ fuel ih =>
    intro p hp
    by_cases hlt : p < data.length
    · have hgd : data.getD p 0 = data[p] := by
        rw [List.getD_eq_getElem?_getD, List.getElem?_eq_getElem hlt]
        rfl
      by_cases hcont : isUtf8Cont (data.getD p 0) = true
      · have hc2 : isUtf8Cont data[p] = true := by rwa [hgd] at hcont
        have hunf : utf8BdLoopF data (fuel + 1) p = utf8BdLoopF data fuel (p + 1) := by
          simp [utf8BdLoopF, hlt, hc2]
        rw [hunf]
        obtain ⟨h1, h2, h3⟩ := ih (p + 1) (by omega)
        exact ⟨by omega, h2, h3⟩
      · have hc2 : isUtf8Cont data[p] = false := by
          rw [← hgd]
          simpa using hcont
        have hunf : utf8BdLoopF data (fuel + 1) p = p := by
          simp [utf8BdLoopF, hlt, hc2]
        rw [hunf]
        exact ⟨le_refl _, by omega, Or.inr (by simpa using hcont)⟩
    · have hunf : utf8BdLoopF data (fuel + 1) p = p := by
        simp [utf8BdLoopF, hlt]
      rw [hunf]
      exact ⟨le_refl _, by omega, Or.inl (by omega)⟩

theorem find_utf8_boundary_spec (data : List Nat) (pos : Nat) (hpos : pos < data.length) :
    pos ≤ find_utf8_boundary data pos ∧ find_utf8_boundary data pos ≤ data.length ∧
    (find_utf8_boundary data pos = data.length ∨
      isUtf8Cont (data.getD (find_utf8_boundary data pos) 0) = false) := by
  unfold find_utf8_boundary
  rw [if_neg (by omega)]
  exact utf8BdLoopF_spec data (data.length + 1) pos (by omega)

theorem utf8BdAuxF_spec (data : List Nat) (cs : Nat) :
    ∀ fuel pos,
      (∀ x ∈ utf8BdAuxF data cs fuel pos, pos ≤ x ∧ x ≤ data.length) ∧
      (utf8BdAuxF data cs fuel pos).Chain' (· < ·) ∧
      (∀ x ∈ utf8BdAuxF data cs fuel pos, x < data.length →
        isUtf8Cont (data.getD x 0) = false) := by
  intro fuel
  induction fuel with
  | zero => intro pos; simp [utf8BdAuxF]
  | succ fuel ih =>
    intro pos
    by_cases h : pos < data.length ∧ 0 < cs
    · obtain ⟨hb1, hb2, hb3⟩ := find_utf8_boundary_spec data pos h.1
      obtain ⟨ih1, ih2, ih3⟩ := ih (find_utf8_boundary data pos + cs)
      rw [utf8BdAuxF_cons data cs fuel pos h]
      refine ⟨?_, ?_, ?_⟩
      · intro x hx
        rcases List.mem_cons.mp hx with rfl | hx
        · exact ⟨hb1, hb2⟩
        · exact ⟨by have := (ih1 x hx).1; omega, (ih1 x hx).2⟩
      · rw [List.chain'_cons']
        refine ⟨?_, ih2⟩
        intro y hy
        have hmem := (ih1 y (List.mem_of_mem_head? hy)).1
        have hc := h.2
        omega
      · intro x hx hxlen
        rcases List.mem_cons.mp hx with rfl | hx
        · rcases hb3 with he | hc
          · omega
          · exact hc
        · exact ih3 x hx hxlen
    · rw [utf8BdAuxF_nil data cs (fuel + 1) pos h]
      simp

theorem find_utf8_chunk_boundaries_head (data : List Nat) (cs : Nat) :
    (find_utf8_chunk_boundaries data cs).head? = some 0 := by
  unfold find_utf8_chunk_boundaries
  split
  · rfl
  · rfl

theorem find_utf8_chunk_boundaries_getLast (data : List Nat) (cs : Nat) :
    (find_utf8_chunk_boundaries data cs).getLast? = some data.length := by
  unfold find_utf8_chunk_boundaries
  split
  · next hcond =>
    rw [List.getLastD_eq_getLast?] at hcond
    cases hl : (0 :: utf8BdAuxF data cs (data.length + 1) cs).getLast? with
    | none => simp at hl
    | some v =>
      rw [hl] at hcond
      simp only [Option.getD_some] at hcond
      exact congrArg some hcond
  · exact List.getLast?_concat _

theorem find_utf8_chunk_boundaries_le (data : List Nat) (cs : Nat) :
    ∀ x ∈ find_utf8_chunk_boundaries data cs, x ≤ data.length := by
  have haux := (utf8BdAuxF_spec data cs (data.length + 1) cs).1
  unfold find_utf8_chunk_boundaries
  intro x hx
  split at hx
  · rcases List.mem_cons.mp hx with rfl | hx
    · exact Nat.zero_le _
    · exact (haux x hx).2
  · rcases List.mem_append.mp hx with hx | hx
    · rcases List.mem_cons.mp hx with rfl | hx
      · exact Nat.zero_le _
      · exact (haux x hx).2
    · have : x = data.length := by simpa using hx
      omega

theorem find_utf8_chunk_boundaries_chain (data : List Nat) (cs : Nat) (hcs : 0 < cs) :
    (find_utf8_chunk_boundaries data cs).Chain' (· < ·) := by
  obtain ⟨haux1, haux2, _⟩ := utf8BdAuxF_spec data cs (data.length + 1) cs
  have hchain0 : (0 :: utf8BdAuxF data cs (data.length + 1) cs).Chain' (· < ·) := by
    rw [List.chain'_cons']
    refine ⟨?_, haux2⟩
    intro y hy
    have := (haux1 y (List.mem_of_mem_head? hy)).1
    omega
  unfold find_utf8_chunk_boundaries
  split
  · exact hchain0
  · next hcond =>
    rw [List.chain'_append]
    refine ⟨hchain0, List.chain'_singleton _, ?_⟩
    intro x hx y hy
    have hy' : y = data.length := by
      have := List.mem_of_mem_head? hy
      simpa using this
    subst hy'
    rw [List.getLastD_eq_getLast?] at hcond
    rw [hx] at hcond
    simp only [Option.getD_some] at hcond
    have hxle : x ≤ data.length := by
      have := List.mem_of_mem_getLast? hx
      rcases List.mem_cons.mp this with rfl | hmem
      · exact Nat.zero_le _
      · exact (haux1 x hmem).2
    omega

theorem find_utf8_chunk_boundaries_cont (data : List Nat) (cs : Nat) :
    ∀ x ∈ find_utf8_chunk_boundaries data cs, 0 < x → x < data.length →
      isUtf8Cont (data.getD x 0) = false := by
  have haux := (utf8BdAuxF_spec data cs (data.length + 1) cs).2.2
  unfold find_utf8_chunk_boundaries
  intro x hx hx0 hxlen
  split at hx
  · rcases List.mem_cons.mp hx with rfl | hx
    · omega
    · exact haux x hx hxlen
  · rcases List.mem_append.mp hx with hx | hx
    · rcases List.mem_cons.mp hx with rfl | hx
      · omega
      · exact haux x hx hxlen
    · have : x = data.length := by simpa using hx
      omega

/-! ### Evaluating the statistics on the four-line buffer -/

theorem collect_exStatData : collect_line_lengths_chunk exStatData = [1, 2, 3, 4] := by
  decide

theorem calc_stats_exStatData :
    calculate_statistics exStatData =
      ⟨5 / 2, 2, Real.sqrt (5 / 4), 1, 4, 0⟩ := by
  rw [calculate_statistics, if_neg (by decide), if_pos (by decide), collect_exStatData,
    calcStatsOfLengths, if_neg (by decide)]
  simp only [Statistics.mk.injEq]
  refine ⟨?_, ?_, ?_, ?_, ?_, ?_⟩
  · norm_num
  · decide
  · congr 1
    push_cast
    norm_num
  · decide
  · decide
  · decide

/-! ### A trailing carriage return without a newline is stripped -/

theorem splitLines_no_nl (r : List Nat) (h : 10 ∉ r) : splitLines r = [r] := by
  induction r with
  | nil => rfl
  | cons b rest ih =>
    have hb : (b == 10) = false := by
      simp only [beq_eq_false_iff_ne, ne_eq]
      intro hb
      exact h (by rw [hb]; exact List.mem_cons_self _ _)
    have hrest : 10 ∉ rest := fun hm => h (List.mem_cons_of_mem _ hm)
    simp only [splitLines, hb, Bool.false_eq_true, if_false, ih hrest]

theorem collect_nil : collect_line_lengths_chunk [] = [] := rfl

theorem collect_no_nl_cr (r : List Nat) (h10 : 10 ∉ r) (h13 : r.getLast? = some 13) :
    collect_line_lengths_chunk r = [r.length - 1] := by
  have hne : r ≠ [] := by
    intro h
    rw [h] at h13
    simp at h13
  unfold collect_line_lengths_chunk
  rw [splitLines_no_nl r h10]
  simp only [List.dropLast_single, List.map_nil, List.nil_append,
    show ([r] : List (List Nat)).getLastD [] = r from rfl]
  rw [if_neg hne, recLen, if_pos h13]

theorem collect_trailing_cr (pre r : List Nat) (hpre : pre = [] ∨ pre.getLast? = some 10)
    (h10 : 10 ∉ r) (h13 : r.getLast? = some 13) :
    collect_line_lengths_chunk (pre ++ r) =
      collect_line_lengths_chunk pre ++ [r.length - 1] := by
  rcases hpre with rfl | hpre
  · rw [List.nil_append, collect_no_nl_cr r h10 h13, collect_nil, List.nil_append]
  · rw [collect_append pre r hpre, collect_no_nl_cr r h10 h13]

theorem maxlen_trailing_cr (pre r : List Nat) (hpre : pre = [] ∨ pre.getLast? = some 10)
    (h10 : 10 ∉ r) (h13 : r.getLast? = some 13) :
    max_line_length_chunk (pre ++ r) =
      max (max_line_length_chunk pre) (r.length - 1) := by
  unfold max_line_length_chunk
  rw [collect_trailing_cr pre r hpre h10 h13, List.foldr_append]
  simp only [List.foldr_cons, List.foldr_nil]
  rw [foldr_max_init]
  omega

theorem hist_trailing_cr (pre r : List Nat) (b : Nat)
    (hpre : pre = [] ∨ pre.getLast? = some 10)
    (h10 : 10 ∉ r) (h13 : r.getLast? = some 13) :
    generate_histogram_chunk (pre ++ r) b =
      generate_histogram_chunk pre b +
        (if (r.length - 1) / 10 * 10 = b then 1 else 0) := by
  unfold generate_histogram_chunk
  rw [collect_trailing_cr pre r hpre h10 h13, List.map_append, List.count_append]
  simp only [List.map_cons, List.map_nil, List.count_cons, List.count_nil, Nat.zero_add,
    beq_iff_eq]

/-! ### The markdown filter emits exactly its kept lines -/

theorem mdGo_flatMap : ∀ (ls : List (List Nat)) (inBlock : Bool),
    mdGo inBlock ls =
      (keptMarkdownLines inBlock ls).flatMap (fun l => utf8Encode l ++ [10]) := by
  intro ls
  induction ls with
  | nil => intro inBlock; rfl
  | cons l ls ih =>
    intro inBlock
    by_cases hf : isFenceLine l = true
    · simp [mdGo, keptMarkdownLines, hf, ih]
    · have hf2 : isFenceLine l = false := by simpa using hf
      by_cases hb : inBlock = true
      · simp [mdGo, keptMarkdownLines, hf2, hb, ih]
      · have hb2 : inBlock = false := by simpa using hb
        simp [mdGo, keptMarkdownLines, hf2, hb2, ih]

/-- Below the parallel threshold, invalid UTF-8 falls back to the byte length. -/
theorem count_chars_lt_invalid (data : List Nat) (hne : data ≠ [])
    (hlt : data.length < PARALLEL_THRESHOLD) (hdec : utf8Decode data = none) :
    count_chars data = data.length := by
  unfold count_chars
  rw [if_neg hne, if_pos hlt]
  exact chars_of_decode_none data hdec

/-! ### Claim theorems -/

/-- C1 (counterexample): the sequential and chunked paths disagree on the
word, unique-word, character and pattern counters — each pair evaluates the
whole-buffer scan and the threshold-selected chunked path of the same buffer
to different values. -/
theorem claim_C1_counterexample :
    (words_seq exWordsData = 2 ∧ count_all_words exWordsData = 1) ∧
    (unique_seq exUniqueData = 1 ∧ count_unique_words exUniqueData = 2) ∧
    (chars_seq exCharsData = CHUNK_SIZE + 1 ∧ count_chars exCharsData = CHUNK_SIZE / 2 + 1) ∧
    (pattern_seq exPatData [97, 97] = CHUNK_SIZE / 2 + 1 ∧
      count_pattern exPatData [97, 97] = CHUNK_SIZE / 2 + 2) :=
  ⟨⟨words_seq_exWordsData, by
      rw [count_all_words_ge exWordsData
        (by
          intro h
          have h2 := congrArg List.length h
          rw [exWordsData_length, List.length_nil] at h2
          omega)
        (by rw [exWordsData_length]; norm_num [PARALLEL_THRESHOLD, CHUNK_SIZE])]
      exact words_par_exWordsData⟩,
   ⟨unique_seq_exUniqueData, count_unique_exUniqueData⟩,
   ⟨chars_seq_exCharsData, count_chars_exCharsData⟩,
   ⟨pattern_seq_exPatData, count_pattern_exPatData⟩⟩

/-- C1 (amended): sequential and chunked paths agree for the line-aligned
family — line count, blank lines, max line length, histogram, the collected
line-length list, and hence the statistics input. -/
theorem claim_C1 :
    (∀ data : List Nat, lines_seq data = lines_par data) ∧
    (∀ data : List Nat, count_blank_lines_chunk data = blanks_par data) ∧
    (∀ data : List Nat, max_line_length_chunk data = maxlen_par data) ∧
    (∀ (data : List Nat) (b : Nat), generate_histogram_chunk data b = hist_par data b) ∧
    (∀ data : List Nat, collect_line_lengths_chunk data = lengths_par data) ∧
    (∀ data : List Nat,
      calculate_statistics data = calcStatsOfLengths (collect_line_lengths_chunk data)) :=
  ⟨lines_seq_eq_par, blanks_seq_eq_par, maxlen_seq_eq_par, hist_seq_eq_par,
   lengths_seq_eq_par, fun data => by
    unfold calculate_statistics
    split
    · next h => rw [h, collect_nil, calcStatsOfLengths, if_pos rfl]
    · split
      · rfl
      · rw [← lengths_seq_eq_par]⟩

/-- C2 (counterexample): for line lengths `[1,2,3,4]` the median field is the
integer 2, not the claimed 2.5. -/
theorem claim_C2_counterexample :
    (calculate_statistics exStatData).median_line_length = 2 ∧ (2 : ℚ) ≠ 5 / 2 :=
  ⟨by rw [calc_stats_exStatData], by norm_num⟩

/-- C2 (amended): on the four-line buffer the statistics are mean `5/2`,
median `2` (usize division truncates the 2.5 average of the central pair),
standard deviation `sqrt (5/4)`, min 1, max 4, no empty lines. -/
theorem claim_C2 :
    calculate_statistics exStatData = ⟨5 / 2, 2, Real.sqrt (5 / 4), 1, 4, 0⟩ :=
  calc_stats_exStatData

/-- C3 (confirmed): on the parallel path the pattern count is the per-chunk
sum plus, for every internal chunk boundary, exactly the indicator of a
straddling occurrence — one when some occurrence starts strictly before and
ends strictly after the boundary, zero otherwise; never two. -/
theorem claim_C3 (data pat : List Nat) (hp : pat ≠ [])
    (hlen : PARALLEL_THRESHOLD ≤ data.length) :
    count_pattern data pat = patChunkSum data pat +
      ((List.range' 1 (numChunks data - 1)).map
        (fun i => straddleInd data pat (i * CHUNK_SIZE))).sum :=
  count_pattern_straddle_decomp data pat hp hlen

/-- Witness for C3 at a concrete threshold-sized buffer. -/
theorem claim_C3_witness :
    count_pattern (List.replicate PARALLEL_THRESHOLD 0) [1] =
      patChunkSum (List.replicate PARALLEL_THRESHOLD 0) [1] +
      ((List.range' 1 (numChunks (List.replicate PARALLEL_THRESHOLD 0) - 1)).map
        (fun i => straddleInd (List.replicate PARALLEL_THRESHOLD 0) [1]
          (i * CHUNK_SIZE))).sum :=
  claim_C3 (List.replicate PARALLEL_THRESHOLD 0) [1] (by simp) (by simp)

/-- C4 (confirmed): the chunk-size−1 run of `a` followed by `bc` counts as one
word, and replacing the byte before the cut with a space makes it two. -/
theorem claim_C4 : count_all_words exData1 = 1 ∧ count_all_words exData2 = 2 :=
  ⟨count_all_words_exData1, count_all_words_exData2⟩

/-- C5 (counterexample): a `/*` immediately preceded by a non-whitespace
character is not stripped — `a/*b*/c\n` passes through unchanged, because the
code calls the marker search for `/*` with the whitespace guard too. -/
theorem claim_C5_counterexample :
    filter_code_comments [97, 47, 42, 98, 42, 47, 99, 10] =
      [97, 47, 42, 98, 42, 47, 99, 10] ∧
    filter_code_comments [97, 47, 42, 98, 42, 47, 99, 10] ≠ [97, 99, 10] := by
  decide

/-- C5 (amended): the whitespace-or-line-start guard applies to `//`, `#`,
`--` and also to `/*`; only the triple-quote docstring delimiters are
unguarded: `a/*b*/c` and `a//b` pass unchanged, ` /*b*/c` is stripped to
` c`, and `a"""b"""c` is stripped to `ac`. -/
theorem claim_C5 :
    filter_code_comments [97, 47, 42, 98, 42, 47, 99, 10] =
      [97, 47, 42, 98, 42, 47, 99, 10] ∧
    filter_code_comments [32, 47, 42, 98, 42, 47, 99, 10] = [32, 99, 10] ∧
    filter_code_comments [97, 34, 34, 34, 98, 34, 34, 34, 99, 10] = [97, 99, 10] ∧
    filter_code_comments [97, 47, 47, 98, 10] = [97, 47, 47, 98, 10] := by
  decide

/-- C6 (counterexample): an invalid buffer above the parallel threshold is
not counted as its byte length — the fallback is per chunk, and the valid
first chunk contributes its character count. -/
theorem claim_C6_counterexample :
    utf8Decode exCharsData = none ∧ count_chars exCharsData ≠ exCharsData.length :=
  ⟨exCharsData_decode_none, by
    rw [count_chars_exCharsData, exCharsData_length]
    norm_num [CHUNK_SIZE]⟩

/-- C6 (amended): below the parallel threshold an invalid buffer is counted
as its byte length. -/
theorem claim_C6 (data : List Nat) (hne : data ≠ [])
    (hlt : data.length < PARALLEL_THRESHOLD) (hdec : utf8Decode data = none) :
    count_chars data = data.length :=
  count_chars_lt_invalid data hne hlt hdec

/-- Witness for C6 at the one-byte invalid buffer. -/
theorem claim_C6_witness : count_chars [255] = ([255] : List Nat).length :=
  claim_C6 [255] (by simp) (by norm_num [PARALLEL_THRESHOLD]) (by decide)

/-- C7 (confirmed): for every buffer and positive chunk size, both planners
start at 0, end at the buffer length and are strictly increasing; every
internal line-aligned offset follows a newline, and no internal UTF-8-aligned
offset lands on a continuation byte. -/
theorem claim_C7 (data : List Nat) (cs : Nat) (hcs : 0 < cs) :
    ((find_line_boundaries data cs).head? = some 0 ∧
     (find_line_boundaries data cs).getLast? = some data.length ∧
     (find_line_boundaries data cs).Chain' (· < ·) ∧
     (∀ x ∈ find_line_boundaries data cs, 0 < x → x < data.length →
        data.getD (x - 1) 0 = 10)) ∧
    ((find_utf8_chunk_boundaries data cs).head? = some 0 ∧
     (find_utf8_chunk_boundaries data cs).getLast? = some data.length ∧
     (find_utf8_chunk_boundaries data cs).Chain' (· < ·) ∧
     (∀ x ∈ find_utf8_chunk_boundaries data cs, 0 < x → x < data.length →
        isUtf8Cont (data.getD x 0) = false)) :=
  ⟨⟨find_line_boundaries_head data cs, find_line_boundaries_getLast data cs,
    find_line_boundaries_chain data cs, find_line_boundaries_nl data cs⟩,
   ⟨find_utf8_chunk_boundaries_head data cs, find_utf8_chunk_boundaries_getLast data cs,
    find_utf8_chunk_boundaries_chain data cs hcs, find_utf8_chunk_boundaries_cont data cs⟩⟩

/-- Witness for C7 at a three-byte buffer with chunk size 2. -/
theorem claim_C7_witness :
    ((find_line_boundaries [97, 10, 98] 2).head? = some 0 ∧
     (find_line_boundaries [97, 10, 98] 2).getLast? =
        some ([97, 10, 98] : List Nat).length ∧
     (find_line_boundaries [97, 10, 98] 2).Chain' (· < ·) ∧
     (∀ x ∈ find_line_boundaries [97, 10, 98] 2, 0 < x →
        x < ([97, 10, 98] : List Nat).length →
        ([97, 10, 98] : List Nat).getD (x - 1) 0 = 10)) ∧
    ((find_utf8_chunk_boundaries [97, 10, 98] 2).head? = some 0 ∧
     (find_utf8_chunk_boundaries [97, 10, 98] 2).getLast? =
        some ([97, 10, 98] : List Nat).length ∧
     (find_utf8_chunk_boundaries [97, 10, 98] 2).Chain' (· < ·) ∧
     (∀ x ∈ find_utf8_chunk_boundaries [97, 10, 98] 2, 0 < x →
        x < ([97, 10, 98] : List Nat).length →
        isUtf8Cont (([97, 10, 98] : List Nat).getD x 0) = false)) :=
  claim_C7 [97, 10, 98] 2 (by norm_num)

/-- C8 (counterexample): a CRLF-terminated line is emitted with a bare LF —
the original terminator is not preserved. -/
theorem claim_C8_counterexample :
    filter_markdown_code [97, 13, 10] = [97, 10] ∧
    filter_markdown_code [97, 13, 10] ≠ [97, 13, 10] := by
  decide

/-- C8 (amended): on valid UTF-8 the markdown filter emits exactly its kept
lines (non-fence lines outside fenced blocks, after inline backtick-span
removal) in original order, each followed by a single `\n` — terminators are
normalised, not preserved. -/
theorem claim_C8 (data text : List Nat) (hdec : utf8Decode data = some text) :
    filter_markdown_code data =
      (keptMarkdownLines false (linesOf text)).flatMap
        (fun l => utf8Encode l ++ [10]) := by
  unfold filter_markdown_code
  rw [hdec]
  exact mdGo_flatMap (linesOf text) false

/-- Witness for C8 at the CRLF buffer. -/
theorem claim_C8_witness :
    filter_markdown_code [97, 13, 10] =
      (keptMarkdownLines false (linesOf [97, 13, 10])).flatMap
        (fun l => utf8Encode l ++ [10]) :=
  claim_C8 [97, 13, 10] [97, 13, 10] (by decide)

/-- C9 (confirmed): every statistic is zero on the empty buffer, the
histogram is the empty mapping, and the statistics record is all-zero. -/
theorem claim_C9 :
    count_lines [] = 0 ∧ count_blank_lines [] = 0 ∧ count_all_words [] = 0 ∧
    count_unique_words [] = 0 ∧ count_chars [] = 0 ∧
    (∀ pat : List Nat, count_pattern [] pat = 0) ∧ max_line_length [] = 0 ∧
    (∀ b : Nat, generate_histogram [] b = 0) ∧
    calculate_statistics [] = ⟨0, 0, 0, 0, 0, 0⟩ :=
  ⟨rfl, rfl, rfl, rfl, rfl, fun _ => rfl, rfl, fun _ => rfl, rfl⟩

/-- C10 (confirmed): an unterminated final record ending in `\r` contributes
its length minus one to the line-length list, the maximum and the histogram;
in particular `max_line_length` of `abc\r` is 3. -/
theorem claim_C10 (pre r : List Nat) (b : Nat)
    (hpre : pre = [] ∨ pre.getLast? = some 10)
    (h10 : 10 ∉ r) (h13 : r.getLast? = some 13) :
    collect_line_lengths_chunk (pre ++ r) =
      collect_line_lengths_chunk pre ++ [r.length - 1] ∧
    max_line_length_chunk (pre ++ r) =
      max (max_line_length_chunk pre) (r.length - 1) ∧
    generate_histogram_chunk (pre ++ r) b =
      generate_histogram_chunk pre b +
        (if (r.length - 1) / 10 * 10 = b then 1 else 0) ∧
    max_line_length [97, 98, 99, 13] = 3 :=
  ⟨collect_trailing_cr pre r hpre h10 h13,
   maxlen_trailing_cr pre r hpre h10 h13,
   hist_trailing_cr pre r b hpre h10 h13,
   by decide⟩

/-- Witness for C10 at `abc\r` with empty prefix. -/
theorem claim_C10_witness :
    collect_line_lengths_chunk ([] ++ [97, 98, 99, 13]) =
      collect_line_lengths_chunk [] ++ [([97, 98, 99, 13] : List Nat).length - 1] ∧
    max_line_length_chunk ([] ++ [97, 98, 99, 13]) =
      max (max_line_length_chunk []) (([97, 98, 99, 13] : List Nat).length - 1) ∧
    generate_histogram_chunk ([] ++ [97, 98, 99, 13]) 0 =
      generate_histogram_chunk [] 0 +
        (if (([97, 98, 99, 13] : List Nat).length - 1) / 10 * 10 = 0 then 1 else 0) ∧
    max_line_length [97, 98, 99, 13] = 3 :=
  claim_C10 [] [97, 98, 99, 13] 0 (Or.inl rfl) (by decide) (by decide)
